import Mathlib

/-!
Verification of the igc-rs line-record codec.

The Rust sources are shallowly embedded: an input line (`&str`) becomes a
`List Nat` of its UTF-8 code units; fallible functions return `RResult`,
whose `panic` constructor records a Rust panic (a failed `assert!`, an
out-of-bounds or non-char-boundary string slice, or — in debug builds — an
arithmetic underflow).  Machine integers are modelled as `Nat`/`Int` with
the overflow checks of `u8`/`u16`/`i8`/`i16` parsing made explicit.
-/

namespace Igc

/-- `src/util/parse_error.rs`: enumeration of parse errors.  The `IOError`
and `Utf8Error` variants exist in the source but are never produced by any
line codec; their payloads are irrelevant here and omitted. -/
inductive ParseError where
  | IOError
  | Utf8Error
  | SyntaxError
  | NonASCIICharacters
  | NumberOutOfRange
  | BadExtension
  | MissingExtension
deriving DecidableEq, Repr

/-- Outcome of a fallible Rust function: `Ok`, `Err`, or a panic (failed
`assert!`, slice index fault, or debug-build integer underflow). -/
inductive RResult (α : Type) where
  | ok (a : α)
  | err (e : ParseError)
  | panic
deriving DecidableEq, Repr

namespace RResult

def bind : RResult α → (α → RResult β) → RResult β
  | .ok a, f => f a
  | .err e, _ => .err e
  | .panic, _ => .panic

def map (f : α → β) : RResult α → RResult β
  | .ok a => .ok (f a)
  | .err e => .err e
  | .panic => .panic

@[simp] theorem bind_ok (a : α) (f : α → RResult β) : bind (.ok a) f = f a := rfl
@[simp] theorem bind_err (e : ParseError) (f : α → RResult β) :
    bind (.err e) f = .err e := rfl
@[simp] theorem bind_panic (f : α → RResult β) : bind .panic f = .panic := rfl
@[simp] theorem map_ok (f : α → β) (a : α) : map f (.ok a) = .ok (f a) := rfl
@[simp] theorem map_err (f : α → β) (e : ParseError) : map f (.err e) = .err e := rfl
@[simp] theorem map_panic (f : α → β) : map f (.panic : RResult α) = .panic := rfl

theorem map_eq_ok {f : α → β} {x : RResult α} {b : β} :
    map f x = .ok b ↔ ∃ a, x = .ok a ∧ f a = b := by
  cases x <;> simp [map]

end RResult

/-! ### Nat-level helpers (mirroring `&str` primitives) -/

/-- `u8::is_ascii` on a code unit. -/
def isAsciiByte (b : Nat) : Bool := b < 128

/-- `str::is_ascii`. -/
def allAscii (s : List Nat) : Bool := s.all isAsciiByte

/-- A UTF-8 continuation byte (`0b10xxxxxx`). -/
def isContByte (b : Nat) : Bool := 128 ≤ b && b < 192

/-- `str::is_char_boundary` at byte index `i`. -/
def isCharBoundary (s : List Nat) (i : Nat) : Bool :=
  i == 0 || i == s.length || (decide (i < s.length) && !isContByte (s.getD i 0))

/-- The byte range `s[a..b]` as a plain list (no panic modelling); used where
the source has already established length/ASCII preconditions. -/
def slice (s : List Nat) (a b : Nat) : List Nat := (s.drop a).take (b - a)

/-- `&s[a..b]` on a `&str` where the indices come from untrusted input:
panics when the range is inverted, out of bounds, or not on character
boundaries. -/
def strSlice (s : List Nat) (a b : Nat) : RResult (List Nat) :=
  if a ≤ b ∧ b ≤ s.length ∧ isCharBoundary s a ∧ isCharBoundary s b then
    .ok (slice s a b)
  else
    .panic

@[simp] theorem slice_nil (a b : Nat) : slice [] a b = [] := by
  simp [slice]

theorem slice_length {s : List Nat} {b : Nat} (a : Nat) (hb : b ≤ s.length) :
    (slice s a b).length = b - a := by
  simp [slice]
  omega

theorem slice_zero (s : List Nat) (b : Nat) : slice s 0 b = s.take b := by
  simp [slice]

theorem slice_cons (x : Nat) (s : List Nat) (a b : Nat) :
    slice (x :: s) (a + 1) (b + 1) = slice s a b := by
  simp [slice, Nat.add_sub_add_right]

/-- Slicing entirely inside the left part of an append. -/
theorem slice_append_left {xs : List Nat} (ys : List Nat) {b : Nat} (a : Nat)
    (hb : b ≤ xs.length) : slice (xs ++ ys) a b = slice xs a b := by
  simp only [slice, List.drop_append_eq_append_drop, List.take_append_eq_append_take]
  have h1 : (xs.drop a).length = xs.length - a := by simp
  have h2 : b - a - (xs.drop a).length = 0 := by rw [h1]; omega
  rw [h2]
  simp

/-- Slicing entirely inside the right part of an append. -/
theorem slice_append_right (xs ys : List Nat) (a b : Nat) :
    slice (xs ++ ys) (xs.length + a) (xs.length + b) = slice ys a b := by
  simp only [slice, List.drop_append_eq_append_drop]
  have h2 : (xs.drop (xs.length + a)) = [] := by
    apply List.drop_eq_nil_of_le; omega
  have h1 : xs.length + a - xs.length = a := by omega
  simp [h1, h2, Nat.add_sub_add_left]

/-- The whole left part of an append, as a slice. -/
theorem slice_prefix (xs ys : List Nat) : slice (xs ++ ys) 0 xs.length = xs := by
  rw [slice_append_left ys 0 (Nat.le_refl _), slice_zero, List.take_length]

theorem allAscii_append {xs ys : List Nat} :
    allAscii (xs ++ ys) = (allAscii xs && allAscii ys) := by
  simp [allAscii]

theorem allAscii_cons {x : Nat} {xs : List Nat} :
    allAscii (x :: xs) = (isAsciiByte x && allAscii xs) := by
  simp [allAscii]

@[simp] theorem allAscii_nil : allAscii [] = true := rfl

/-! ### Numeric field parsing (Rust `u8`/`u16`/`i8`/`i16` `FromStr`)

`<uN as FromStr>::from_str` accepts an optional leading `+` followed by one
or more ASCII decimal digits, rejecting on overflow; the signed versions
additionally accept a leading `-`.  Every `ParseIntError` is converted to
`ParseError::SyntaxError` (`src/util/parse_error.rs`). -/

def isDigitByte (b : Nat) : Bool := 48 ≤ b && b ≤ 57

def digitVal? (b : Nat) : Option Nat :=
  if 48 ≤ b ∧ b ≤ 57 then some (b - 48) else none

def natFromDigitsAux : List Nat → Nat → Option Nat
  | [], acc => some acc
  | b :: rest, acc =>
    match digitVal? b with
    | some d => natFromDigitsAux rest (acc * 10 + d)
    | none => none

/-- The value of a non-empty all-digit byte string; `none` otherwise. -/
def natFromDigits? (s : List Nat) : Option Nat :=
  match s with
  | [] => none
  | _ => natFromDigitsAux s 0

/-- Removal of the single optional leading `+` accepted by Rust integer
parsing. -/
def stripPlus : List Nat → List Nat
  | b :: rest => if b = 43 then rest else b :: rest
  | [] => []

/-- Rust `from_str` for an unsigned integer type with maximum value `bound`. -/
def parseU (bound : Nat) (s : List Nat) : Option Nat :=
  (natFromDigits? (stripPlus s)).bind fun v =>
    if v ≤ bound then some v else none

/-- Rust `from_str` for a signed integer type with range `[lo, hi]`. -/
def parseI (lo hi : Int) (s : List Nat) : Option Int :=
  match s with
  | b :: rest =>
    if b = 43 then
      (natFromDigits? rest).bind fun v =>
        if (v : Int) ≤ hi then some (v : Int) else none
    else if b = 45 then
      (natFromDigits? rest).bind fun v =>
        if lo ≤ -(v : Int) then some (-(v : Int)) else none
    else
      (natFromDigits? (b :: rest)).bind fun v =>
        if (v : Int) ≤ hi then some (v : Int) else none
  | [] => none

/-- `s.parse::<uN>()` lifted to a record-parse step (`?` with the
`From<ParseIntError> for ParseError` conversion). -/
def pU (bound : Nat) (s : List Nat) : RResult Nat :=
  match parseU bound s with
  | some v => .ok v
  | none => .err .SyntaxError

/-- `s.parse::<iN>()` lifted to a record-parse step. -/
def pI (lo hi : Int) (s : List Nat) : RResult Int :=
  match parseI lo hi s with
  | some v => .ok v
  | none => .err .SyntaxError

/-! ### Numeric field formatting (Rust `{:0w}`) -/

/-- Fuel-driven worker for `natDigits`; the fuel only forces structural
recursion and never runs out when it starts at the number itself. -/
def natDigitsFuel : Nat → Nat → List Nat
  | 0, n => [48 + n % 10]
  | fuel + 1, n => if n < 10 then [48 + n] else natDigitsFuel fuel (n / 10) ++ [48 + n % 10]

/-- Decimal digit bytes of `n`, most significant first (`"0"` for zero). -/
def natDigits (n : Nat) : List Nat := natDigitsFuel n n

theorem natDigitsFuel_congr :
    ∀ f1 f2 n, n ≤ f1 → n ≤ f2 → natDigitsFuel f1 n = natDigitsFuel f2 n := by
  intro f1
  induction f1 with
  | zero =>
    intro f2 n h1 _
    have hn : n = 0 := by omega
    subst hn
    cases f2 <;> rfl
  | succ f1 ih =>
    intro f2 n h1 h2
    by_cases hn : n < 10
    · cases f2 with
      | zero =>
        have : n = 0 := by omega
        subst this
        rfl
      | succ f2 =>
        simp [natDigitsFuel, hn]
    · cases f2 with
      | zero => omega
      | succ f2 =>
        simp only [natDigitsFuel, if_neg hn]
        congr 1
        have hd : n / 10 < n := Nat.div_lt_self (by omega) (by omega)
        exact ih f2 (n / 10) (by omega) (by omega)

theorem natDigitsFuel_eq {fuel n : Nat} (h : n ≤ fuel) :
    natDigitsFuel fuel n =
      if n < 10 then [48 + n] else natDigits (n / 10) ++ [48 + n % 10] := by
  cases fuel with
  | zero =>
    have hn : n = 0 := by omega
    subst hn
    simp [natDigitsFuel]
  | succ f =>
    by_cases h10 : n < 10
    · simp [natDigitsFuel, h10]
    · simp only [natDigitsFuel, if_neg h10]
      congr 1
      have hd : n / 10 < n := Nat.div_lt_self (by omega) (by omega)
      rw [natDigits]
      exact natDigitsFuel_congr f (n / 10) (n / 10) (by omega) (by omega)

/-- The defining equation of `natDigits`. -/
theorem natDigits_eq (n : Nat) :
    natDigits n = if n < 10 then [48 + n] else natDigits (n / 10) ++ [48 + n % 10] := by
  rw [natDigits]
  exact natDigitsFuel_eq (Nat.le_refl n)

/-- Rust `format!("{:0w}", n)` for an unsigned value. -/
def fmtNat (w n : Nat) : List Nat :=
  List.replicate (w - (natDigits n).length) 48 ++ natDigits n

/-- Rust `format!("{:0w}", i)` for a signed value: the sign is written first
and the zero padding brings the total width (sign included) to `w`. -/
def fmtInt (w : Nat) (i : Int) : List Nat :=
  if i < 0 then 45 :: fmtNat (w - 1) i.natAbs else fmtNat w i.natAbs

theorem natDigits_ne_nil (n : Nat) : natDigits n ≠ [] := by
  rw [natDigits_eq]
  split <;> simp

theorem digitVal_le {b d : Nat} (h : digitVal? b = some d) : d ≤ 9 := by
  rw [digitVal?] at h
  split at h
  · rename_i hb
    injection h with h1
    omega
  · exact absurd h (by simp)

theorem natDigits_digits (n : Nat) : ∀ b ∈ natDigits n, isDigitByte b = true := by
  induction n using Nat.strong_induction_on with
  | _ n ih =>
    rw [natDigits_eq]
    split
    · intro b hb
      simp only [List.mem_singleton] at hb
      subst hb
      simp only [isDigitByte, Bool.and_eq_true, decide_eq_true_eq]
      omega
    · intro b hb
      rw [List.mem_append] at hb
      rcases hb with hb | hb
      · exact ih (n / 10) (Nat.div_lt_self (by omega) (by omega)) b hb
      · simp only [List.mem_singleton] at hb
        subst hb
        have : n % 10 < 10 := Nat.mod_lt _ (by omega)
        simp only [isDigitByte, Bool.and_eq_true, decide_eq_true_eq]
        omega

theorem natDigits_length_le {n k : Nat} (hk : 1 ≤ k) (hn : n < 10 ^ k) :
    (natDigits n).length ≤ k := by
  induction n using Nat.strong_induction_on generalizing k with
  | _ n ih =>
    rw [natDigits_eq]
    split
    · simpa using hk
    · rename_i h
      have hk2 : 2 ≤ k := by
        by_contra hcon
        have : k = 1 := by omega
        subst this
        simp at hn
        omega
      have hlt : n / 10 < 10 ^ (k - 1) := by
        have h10 : 10 ^ k = 10 ^ (k - 1) * 10 := by
          conv_lhs => rw [show k = (k - 1) + 1 by omega]
          rw [pow_succ]
        apply Nat.div_lt_of_lt_mul
        omega
      have hrec := ih (n / 10) (Nat.div_lt_self (by omega) (by omega)) (by omega) hlt
      simp only [List.length_append, List.length_singleton]
      omega

theorem natFromDigitsAux_append (xs ys : List Nat) (acc : Nat) :
    natFromDigitsAux (xs ++ ys) acc =
      match natFromDigitsAux xs acc with
      | some a => natFromDigitsAux ys a
      | none => none := by
  induction xs generalizing acc with
  | nil => simp [natFromDigitsAux]
  | cons b rest ih =>
    simp only [List.cons_append, natFromDigitsAux]
    cases digitVal? b with
    | some d => exact ih _
    | none => rfl

theorem natFromDigitsAux_natDigits (n : Nat) :
    ∀ acc, natFromDigitsAux (natDigits n) acc =
      some (acc * 10 ^ (natDigits n).length + n) := by
  induction n using Nat.strong_induction_on with
  | _ n ih =>
    intro acc
    by_cases h : n < 10
    · rw [natDigits_eq, if_pos h]
      have hd : digitVal? (48 + n) = some n := by
        rw [digitVal?, if_pos (by omega)]
        congr 1
        omega
      simp only [natFromDigitsAux, hd, List.length_singleton, pow_one]
    · rw [natDigits_eq, if_neg h]
      rw [natFromDigitsAux_append]
      rw [ih (n / 10) (Nat.div_lt_self (by omega) (by omega)) acc]
      have hd : digitVal? (48 + n % 10) = some (n % 10) := by
        have : n % 10 < 10 := Nat.mod_lt _ (by omega)
        rw [digitVal?, if_pos (by omega)]
        congr 1
        omega
      simp only [natFromDigitsAux, hd, List.length_append, List.length_singleton]
      congr 1
      have hx : acc * 10 ^ ((natDigits (n / 10)).length + 1) =
          acc * 10 ^ (natDigits (n / 10)).length * 10 := by ring
      rw [hx]
      have hdiv := Nat.div_add_mod n 10
      have hmod : n % 10 < 10 := Nat.mod_lt _ (by omega)
      omega

theorem natFromDigitsAux_bound {s : List Nat} {acc v : Nat}
    (h : natFromDigitsAux s acc = some v) : v < (acc + 1) * 10 ^ s.length := by
  induction s generalizing acc with
  | nil =>
    simp only [natFromDigitsAux, Option.some.injEq] at h
    subst h
    simp
  | cons b rest ih =>
    simp only [natFromDigitsAux] at h
    cases hd : digitVal? b with
    | none => rw [hd] at h; exact absurd h (by simp)
    | some d =>
      rw [hd] at h
      have hd9 : d ≤ 9 := digitVal_le hd
      have := ih h
      have hpow : (acc * 10 + d + 1) * 10 ^ rest.length ≤ (acc + 1) * (10 ^ rest.length * 10) := by
        have hle : acc * 10 + d + 1 ≤ (acc + 1) * 10 := by omega
        calc (acc * 10 + d + 1) * 10 ^ rest.length
            ≤ (acc + 1) * 10 * 10 ^ rest.length := Nat.mul_le_mul_right _ hle
          _ = (acc + 1) * (10 ^ rest.length * 10) := by ring
      simp only [List.length_cons, pow_succ]
      omega

theorem natFromDigits_bound {s : List Nat} {v : Nat}
    (h : natFromDigits? s = some v) : v < 10 ^ s.length := by
  cases s with
  | nil => simp [natFromDigits?] at h
  | cons b rest =>
    have := @natFromDigitsAux_bound (b :: rest) 0 _ h
    simpa using this

theorem natFromDigits_eq_aux {s : List Nat} (h : s ≠ []) :
    natFromDigits? s = natFromDigitsAux s 0 := by
  cases s with
  | nil => exact absurd rfl h
  | cons b r => rfl

theorem natFromDigits_replicate_append {s : List Nat} (k : Nat) (h : s ≠ []) :
    natFromDigits? (List.replicate k 48 ++ s) = natFromDigits? s := by
  have key : ∀ m, natFromDigitsAux (List.replicate m 48) 0 = some 0 := by
    intro m
    induction m with
    | zero => rfl
    | succ m ihm =>
      have hd : digitVal? 48 = some 0 := by rw [digitVal?, if_pos (by omega)]
      simp only [List.replicate_succ, natFromDigitsAux, hd]
      simpa using ihm
  rw [natFromDigits_eq_aux (by simp [h]), natFromDigits_eq_aux h,
    natFromDigitsAux_append, key k]

theorem natFromDigits_natDigits (n : Nat) : natFromDigits? (natDigits n) = some n := by
  rw [natFromDigits_eq_aux (natDigits_ne_nil n), natFromDigitsAux_natDigits]
  simp

theorem natFromDigits_fmtNat (w n : Nat) : natFromDigits? (fmtNat w n) = some n := by
  rw [fmtNat, natFromDigits_replicate_append _ (natDigits_ne_nil n),
    natFromDigits_natDigits]

theorem fmtNat_length {w n : Nat} (hw : 1 ≤ w) (hn : n < 10 ^ w) :
    (fmtNat w n).length = w := by
  have h := natDigits_length_le hw hn
  simp only [fmtNat, List.length_append, List.length_replicate]
  omega

theorem fmtNat_digits (w n : Nat) : ∀ b ∈ fmtNat w n, isDigitByte b = true := by
  intro b hb
  simp only [fmtNat, List.mem_append] at hb
  rcases hb with hb | hb
  · have := List.eq_of_mem_replicate hb
    subst this
    decide
  · exact natDigits_digits n b hb

theorem fmtNat_ascii (w n : Nat) : allAscii (fmtNat w n) = true := by
  simp only [allAscii, List.all_eq_true]
  intro b hb
  have := fmtNat_digits w n b hb
  simp only [isDigitByte, Bool.and_eq_true, decide_eq_true_eq] at this
  simp only [isAsciiByte, decide_eq_true_eq]
  omega

theorem fmtNat_head_digit (w n : Nat) :
    ∃ b rest, fmtNat w n = b :: rest ∧ isDigitByte b = true := by
  cases h : fmtNat w n with
  | nil =>
    exfalso
    have hne := natDigits_ne_nil n
    rw [fmtNat] at h
    rcases List.append_eq_nil.mp h with ⟨_, h2⟩
    exact hne h2
  | cons b rest =>
    refine ⟨b, rest, rfl, ?_⟩
    have : b ∈ fmtNat w n := by rw [h]; simp
    exact fmtNat_digits w n b this

theorem stripPlus_of_head_digit {b : Nat} (rest : List Nat)
    (h : isDigitByte b = true) : stripPlus (b :: rest) = b :: rest := by
  have : b ≠ 43 := by
    simp only [isDigitByte, Bool.and_eq_true, decide_eq_true_eq] at h
    omega
  simp [stripPlus, this]

theorem parseU_fmtNat {bound w n : Nat} (hn : n ≤ bound) :
    parseU bound (fmtNat w n) = some n := by
  obtain ⟨b, rest, heq, hd⟩ := fmtNat_head_digit w n
  rw [parseU, heq, stripPlus_of_head_digit rest hd, ← heq, natFromDigits_fmtNat]
  simp [hn]

theorem parseU_le_bound {bound : Nat} {s : List Nat} {v : Nat}
    (h : parseU bound s = some v) : v ≤ bound := by
  simp only [parseU, Option.bind_eq_some] at h
  obtain ⟨a, _, ha⟩ := h
  by_cases hb : a ≤ bound
  · rw [if_pos hb] at ha
    injection ha with ha
    omega
  · rw [if_neg hb] at ha
    exact absurd ha (by simp)

theorem stripPlus_length_le (s : List Nat) : (stripPlus s).length ≤ s.length := by
  cases s with
  | nil => simp [stripPlus]
  | cons b rest =>
    simp only [stripPlus]
    split <;> simp

theorem parseU_lt {bound : Nat} {s : List Nat} {v : Nat}
    (h : parseU bound s = some v) : v < 10 ^ s.length := by
  simp only [parseU, Option.bind_eq_some] at h
  obtain ⟨a, hnf, ha⟩ := h
  have hv : v = a := by
    by_cases hb : a ≤ bound
    · rw [if_pos hb] at ha; injection ha with ha; omega
    · rw [if_neg hb] at ha; exact absurd ha (by simp)
  subst hv
  have h1 := natFromDigits_bound hnf
  have h2 := stripPlus_length_le s
  calc v < 10 ^ (stripPlus s).length := h1
    _ ≤ 10 ^ s.length := Nat.pow_le_pow_right (by omega) h2

theorem parseI_bounds {lo hi : Int} {s : List Nat} {v : Int}
    (h : parseI lo hi s = some v) (hlo : lo ≤ 0) (hhi : 0 ≤ hi) :
    lo ≤ v ∧ v ≤ hi := by
  cases s with
  | nil => simp [parseI] at h
  | cons b rest =>
    simp only [parseI] at h
    by_cases h43 : b = 43
    · rw [if_pos h43] at h
      simp only [Option.bind_eq_some] at h
      obtain ⟨a, _, ha⟩ := h
      by_cases hb : (a : Int) ≤ hi
      · rw [if_pos hb] at ha
        injection ha with ha
        subst ha
        constructor
        · calc lo ≤ 0 := hlo
            _ ≤ (a : Int) := Int.ofNat_nonneg a
        · exact hb
      · rw [if_neg hb] at ha; exact absurd ha (by simp)
    · rw [if_neg h43] at h
      by_cases h45 : b = 45
      · rw [if_pos h45] at h
        simp only [Option.bind_eq_some] at h
        obtain ⟨a, _, ha⟩ := h
        by_cases hb : lo ≤ -(a : Int)
        · rw [if_pos hb] at ha
          injection ha with ha
          subst ha
          refine ⟨hb, ?_⟩
          calc -(a : Int) ≤ 0 := by omega
            _ ≤ hi := hhi
        · rw [if_neg hb] at ha; exact absurd ha (by simp)
      · rw [if_neg h45] at h
        simp only [Option.bind_eq_some] at h
        obtain ⟨a, _, ha⟩ := h
        by_cases hb : (a : Int) ≤ hi
        · rw [if_pos hb] at ha
          injection ha with ha
          subst ha
          constructor
          · calc lo ≤ 0 := hlo
              _ ≤ (a : Int) := Int.ofNat_nonneg a
          · exact hb
        · rw [if_neg hb] at ha; exact absurd ha (by simp)

theorem parseI_size {lo hi : Int} {s : List Nat} {v : Int}
    (h : parseI lo hi s = some v) :
    -((10 : Int) ^ (s.length - 1)) < v ∧ v < (10 : Int) ^ s.length := by
  have pow_pos : ∀ k : Nat, (0 : Int) < 10 ^ k := fun k => pow_pos (by omega) k
  have cast_pow : ∀ k : Nat, ((10 ^ k : Nat) : Int) = (10 : Int) ^ k := fun k => by
    push_cast
    ring
  cases s with
  | nil => simp [parseI] at h
  | cons b rest =>
    have hlen : (b :: rest).length - 1 = rest.length := by simp
    simp only [parseI] at h
    by_cases h43 : b = 43
    · rw [if_pos h43] at h
      simp only [Option.bind_eq_some] at h
      obtain ⟨a, hnf, ha⟩ := h
      have hb1 := natFromDigits_bound hnf
      have hva : v = (a : Int) := by
        by_cases hb : (a : Int) ≤ hi
        · rw [if_pos hb] at ha; injection ha with ha; omega
        · rw [if_neg hb] at ha; exact absurd ha (by simp)
      subst hva
      rw [hlen]
      constructor
      · calc -((10 : Int) ^ rest.length) < 0 := by
              have := pow_pos rest.length; omega
          _ ≤ (a : Int) := Int.ofNat_nonneg a
      · have : (a : Int) < ((10 ^ rest.length : Nat) : Int) := by exact_mod_cast hb1
        rw [cast_pow] at this
        calc (a : Int) < (10 : Int) ^ rest.length := this
          _ ≤ (10 : Int) ^ (rest.length + 1) := by
              have h10 : (10 : Int) ^ (rest.length + 1) = (10 : Int) ^ rest.length * 10 :=
                pow_succ 10 rest.length
              have := pow_pos rest.length
              omega
    · rw [if_neg h43] at h
      by_cases h45 : b = 45
      · rw [if_pos h45] at h
        simp only [Option.bind_eq_some] at h
        obtain ⟨a, hnf, ha⟩ := h
        have hb1 := natFromDigits_bound hnf
        have hva : v = -(a : Int) := by
          by_cases hb : lo ≤ -(a : Int)
          · rw [if_pos hb] at ha; injection ha with ha; omega
          · rw [if_neg hb] at ha; exact absurd ha (by simp)
        subst hva
        rw [hlen]
        have : (a : Int) < ((10 ^ rest.length : Nat) : Int) := by exact_mod_cast hb1
        rw [cast_pow] at this
        constructor
        · omega
        · have h1 : (0 : Int) < (10 : Int) ^ (b :: rest).length := by positivity
          have h2 := Int.ofNat_nonneg a
          omega
      · rw [if_neg h45] at h
        simp only [Option.bind_eq_some] at h
        obtain ⟨a, hnf, ha⟩ := h
        have hb1 := natFromDigits_bound hnf
        have hva : v = (a : Int) := by
          by_cases hb : (a : Int) ≤ hi
          · rw [if_pos hb] at ha; injection ha with ha; omega
          · rw [if_neg hb] at ha; exact absurd ha (by simp)
        subst hva
        have : (a : Int) < ((10 ^ (b :: rest).length : Nat) : Int) := by exact_mod_cast hb1
        rw [cast_pow] at this
        rw [hlen]
        refine ⟨?_, this⟩
        have h1 := pow_pos rest.length
        have h2 := Int.ofNat_nonneg a
        omega

theorem fmtInt_length {w : Nat} {v : Int} (hw : 1 ≤ w)
    (hneg : -((10 : Int) ^ (w - 1)) < v) (hpos : v < (10 : Int) ^ w) :
    (fmtInt w v).length = w := by
  rw [fmtInt]
  by_cases hv : v < 0
  · rw [if_pos hv]
    have hw2 : 2 ≤ w := by
      by_contra hcon
      have hw1 : w = 1 := by omega
      subst hw1
      simp at hneg
      omega
    have habs : v.natAbs < 10 ^ (w - 1) := by
      have : (v.natAbs : Int) < (10 : Int) ^ (w - 1) := by omega
      have hc : ((10 ^ (w - 1) : Nat) : Int) = (10 : Int) ^ (w - 1) := by push_cast; ring
      omega
    have := fmtNat_length (w := w - 1) (n := v.natAbs) (by omega) habs
    simp only [List.length_cons, this]
    omega
  · rw [if_neg hv]
    have habs : v.natAbs < 10 ^ w := by
      have hc : ((10 ^ w : Nat) : Int) = (10 : Int) ^ w := by push_cast; ring
      omega
    exact fmtNat_length hw habs

theorem fmtInt_ascii (w : Nat) (v : Int) : allAscii (fmtInt w v) = true := by
  rw [fmtInt]
  by_cases hv : v < 0
  · rw [if_pos hv, allAscii_cons, fmtNat_ascii]
    decide
  · rw [if_neg hv]
    exact fmtNat_ascii _ _

theorem parseI_fmtInt {lo hi : Int} {w : Nat} {v : Int}
    (hlo : lo ≤ v) (hhi : v ≤ hi) :
    parseI lo hi (fmtInt w v) = some v := by
  rw [fmtInt]
  by_cases hv : v < 0
  · rw [if_pos hv]
    simp only [parseI, if_true, if_false]
    rw [natFromDigits_fmtNat]
    simp only [Option.some_bind]
    have habs : -(v.natAbs : Int) = v := by omega
    rw [habs]
    simp [hlo]
  · rw [if_neg hv]
    obtain ⟨b, rest, heq, hd⟩ := fmtNat_head_digit w v.natAbs
    have hb : 48 ≤ b ∧ b ≤ 57 := by
      simp only [isDigitByte, Bool.and_eq_true, decide_eq_true_eq] at hd
      exact hd
    rw [heq]
    simp only [parseI]
    rw [if_neg (by omega), if_neg (by omega), ← heq, natFromDigits_fmtNat]
    simp only [Option.some_bind]
    have habs : (v.natAbs : Int) = v := by omega
    rw [habs]
    simp [hhi]

@[simp] theorem pU_eq_ok {bound : Nat} {s : List Nat} {v : Nat} :
    pU bound s = .ok v ↔ parseU bound s = some v := by
  rw [pU]
  cases h : parseU bound s <;> simp

@[simp] theorem pI_eq_ok {lo hi : Int} {s : List Nat} {v : Int} :
    pI lo hi s = .ok v ↔ parseI lo hi s = some v := by
  rw [pI]
  cases h : parseI lo hi s <;> simp

theorem RResult.bind_eq_ok {x : RResult α} {f : α → RResult β} {b : β} :
    RResult.bind x f = .ok b ↔ ∃ a, x = .ok a ∧ f a = .ok b := by
  cases x <;> simp [RResult.bind]

/-! ### `src/util/datetime.rs` -/

/-- A time of day with second precision. -/
structure Time where
  hours : Nat
  minutes : Nat
  seconds : Nat
deriving DecidableEq, Repr

/-- `Time::parse`, for a time string of the form "HHMMSS".  The source
asserts `time_string.len() == 6` (a panic on violation), checks ASCII,
parses the three 2-byte `u8` sub-fields, and rejects `hours > 24 ||
minutes > 60 || seconds > 60` with `NumberOutOfRange`. -/
def Time.parse (s : List Nat) : RResult Time :=
  if s.length ≠ 6 then .panic
  else if allAscii s = false then .err .NonASCIICharacters
  else
    (pU 255 (slice s 0 2)).bind fun hours =>
    (pU 255 (slice s 2 4)).bind fun minutes =>
    (pU 255 (slice s 4 6)).bind fun seconds =>
    if hours > 24 ∨ minutes > 60 ∨ seconds > 60 then .err .NumberOutOfRange
    else .ok ⟨hours, minutes, seconds⟩

/-- `impl Display for Time`: `"{:02}{:02}{:02}"`. -/
def Time.format (t : Time) : List Nat :=
  fmtNat 2 t.hours ++ (fmtNat 2 t.minutes ++ fmtNat 2 t.seconds)

/-- A Gregorian calendar day (2-digit year). -/
structure Date where
  day : Nat
  month : Nat
  year : Nat
deriving DecidableEq, Repr

/-- `Date::parse`, for a date string of the form "DDMMYY"; rejects
`day > 31 || month > 12` with `NumberOutOfRange`, the year is unchecked. -/
def Date.parse (s : List Nat) : RResult Date :=
  if s.length ≠ 6 then .panic
  else if allAscii s = false then .err .NonASCIICharacters
  else
    (pU 255 (slice s 0 2)).bind fun day =>
    (pU 255 (slice s 2 4)).bind fun month =>
    (pU 255 (slice s 4 6)).bind fun year =>
    if day > 31 ∨ month > 12 then .err .NumberOutOfRange
    else .ok ⟨day, month, year⟩

/-- `impl Display for Date`: `"{:02}{:02}{:02}"`. -/
def Date.format (d : Date) : List Nat :=
  fmtNat 2 d.day ++ (fmtNat 2 d.month ++ fmtNat 2 d.year)

/-! ### `src/util/coord.rs` -/

/-- Cardinal directions. -/
inductive Compass where
  | North
  | South
  | East
  | West
deriving DecidableEq, Repr

/-- `impl Display for Compass`: the single hemisphere letter. -/
def Compass.byte : Compass → Nat
  | .North => 78
  | .South => 83
  | .East => 69
  | .West => 87

/-- A raw latitude or longitude: degrees, thousandths of minutes, and a
hemisphere sign. -/
structure RawCoord where
  degrees : Nat
  minute_thousandths : Nat
  sign : Compass
deriving DecidableEq, Repr

/-- The hemisphere-letter match of `RawLatitude::from_str`: `N` gives
`North`, `S` gives `South`, anything else is a `SyntaxError`. -/
def latSign (b : List Nat) : RResult Compass :=
  match b with
  | [78] => .ok Compass.North
  | [83] => .ok Compass.South
  | _ => .err .SyntaxError

/-- `RawLatitude::from_str`, for a latitude string "DDMMMMMS": asserts
length 8, checks ASCII, parses 2-digit `u8` degrees and 5-digit `u16`
minute-thousandths, matches the trailing letter against `N`/`S`, and
rejects `degrees > 90 || minute_thousandths > 60000`. -/
def latParse (s : List Nat) : RResult RawCoord :=
  if s.length ≠ 8 then .panic
  else if allAscii s = false then .err .NonASCIICharacters
  else
    (pU 255 (slice s 0 2)).bind fun degrees =>
    (pU 65535 (slice s 2 7)).bind fun minute_thousandths =>
    (latSign (slice s 7 8)).bind fun sign =>
    if degrees > 90 ∨ minute_thousandths > 60000 then .err .NumberOutOfRange
    else .ok ⟨degrees, minute_thousandths, sign⟩

/-- `impl Display for RawLatitude`: `"{:02}{:05}{}"`. -/
def latFormat (c : RawCoord) : List Nat :=
  fmtNat 2 c.degrees ++ (fmtNat 5 c.minute_thousandths ++ [c.sign.byte])

/-- The `match &lon_string[8..9] { "E" => East, "W" => West, _ => SyntaxError }`
step of `RawLongitude::from_str`. -/
def lonSign (b : List Nat) : RResult Compass :=
  match b with
  | [69] => .ok Compass.East
  | [87] => .ok Compass.West
  | _ => .err .SyntaxError

/-- `RawLongitude::from_str`, for a longitude string "DDDMMMMMW": asserts
length 9, checks ASCII, parses 3-digit `u8` degrees and 5-digit `u16`
minute-thousandths, matches the trailing letter against `E`/`W`, and
rejects `degrees > 180 || minute_thousandths > 60000`. -/
def lonParse (s : List Nat) : RResult RawCoord :=
  if s.length ≠ 9 then .panic
  else if allAscii s = false then .err .NonASCIICharacters
  else
    (pU 255 (slice s 0 3)).bind fun degrees =>
    (pU 65535 (slice s 3 8)).bind fun minute_thousandths =>
    (lonSign (slice s 8 9)).bind fun sign =>
    if degrees > 180 ∨ minute_thousandths > 60000 then .err .NumberOutOfRange
    else .ok ⟨degrees, minute_thousandths, sign⟩

/-- `impl Display for RawLongitude`: `"{:03}{:05}{}"`. -/
def lonFormat (c : RawCoord) : List Nat :=
  fmtNat 3 c.degrees ++ (fmtNat 5 c.minute_thousandths ++ [c.sign.byte])

/-- A raw latitude/longitude pair. -/
structure RawPosition where
  lat : RawCoord
  lon : RawCoord
deriving DecidableEq, Repr

/-- `RawPosition::from_str`: asserts length 17, checks ASCII, then parses
the two halves. -/
def posParse (s : List Nat) : RResult RawPosition :=
  if s.length ≠ 17 then .panic
  else if allAscii s = false then .err .NonASCIICharacters
  else
    (latParse (slice s 0 8)).bind fun lat =>
    (lonParse (slice s 8 17)).bind fun lon =>
    .ok ⟨lat, lon⟩

/-- `impl Display for RawPosition`. -/
def posFormat (p : RawPosition) : List Nat := latFormat p.lat ++ lonFormat p.lon

/-! ### Slicing formatted concatenations -/

theorem slice_prefix_len {xs : List Nat} (ys : List Nat) {n : Nat}
    (h : xs.length = n) : slice (xs ++ ys) 0 n = xs := by
  subst h
  exact slice_prefix xs ys

theorem slice_last {xs ms : List Nat} {a b : Nat} (hxs : xs.length = a)
    (hms : ms.length = b - a) (hab : a ≤ b) : slice (xs ++ ms) a b = ms := by
  subst hxs
  rw [show b = xs.length + ms.length by omega]
  have h := slice_append_right xs ms 0 ms.length
  rw [Nat.add_zero] at h
  rw [h, slice_zero, List.take_length]

theorem slice_middle {xs ms : List Nat} (zs : List Nat) {a b : Nat}
    (hxs : xs.length = a) (hms : ms.length = b - a) (hab : a ≤ b) :
    slice (xs ++ (ms ++ zs)) a b = ms := by
  subst hxs
  rw [show b = xs.length + ms.length by omega]
  have h := slice_append_right xs (ms ++ zs) 0 ms.length
  rw [Nat.add_zero] at h
  rw [h, slice_zero, List.take_left]

theorem drop_append_len_of {xs ys : List Nat} {n : Nat} (h : xs.length = n) :
    (xs ++ ys).drop n = ys := by
  subst h
  simp

theorem pU_fmtNat {bound w n : Nat} (hn : n ≤ bound) :
    pU bound (fmtNat w n) = .ok n := by
  rw [pU, parseU_fmtNat hn]

theorem pI_fmtInt {lo hi : Int} {w : Nat} {v : Int} (hlo : lo ≤ v) (hhi : v ≤ hi) :
    pI lo hi (fmtInt w v) = .ok v := by
  rw [pI, parseI_fmtInt hlo hhi]

/-! ### Round-trip facts for the primitive codecs -/

theorem timeParse_ok {s : List Nat} {t : Time} (h : Time.parse s = .ok t) :
    t.hours ≤ 24 ∧ t.minutes ≤ 60 ∧ t.seconds ≤ 60 := by
  rw [Time.parse] at h
  split at h
  · exact absurd h (by simp)
  split at h
  · exact absurd h (by simp)
  simp only [RResult.bind_eq_ok, pU_eq_ok] at h
  obtain ⟨hh, hph, mm, hpm, ss, hps, hfin⟩ := h
  split at hfin
  · exact absurd hfin (by simp)
  · rename_i hcond
    push_neg at hcond
    injection hfin with hfin
    subst hfin
    exact ⟨hcond.1, hcond.2.1, hcond.2.2⟩

theorem timeFormat_spec {t : Time} (hh : t.hours ≤ 24) (hm : t.minutes ≤ 60)
    (hs : t.seconds ≤ 60) :
    Time.parse (Time.format t) = .ok t ∧ (Time.format t).length = 6 ∧
      allAscii (Time.format t) = true := by
  have lA : (fmtNat 2 t.hours).length = 2 := fmtNat_length (by omega) (by omega)
  have lB : (fmtNat 2 t.minutes).length = 2 := fmtNat_length (by omega) (by omega)
  have lC : (fmtNat 2 t.seconds).length = 2 := fmtNat_length (by omega) (by omega)
  have hlen : (Time.format t).length = 6 := by
    simp [Time.format, lA, lB, lC]
  have hascii : allAscii (Time.format t) = true := by
    simp [Time.format, allAscii_append, fmtNat_ascii]
  refine ⟨?_, hlen, hascii⟩
  have s1 : slice (Time.format t) 0 2 = fmtNat 2 t.hours := by
    rw [Time.format]
    exact slice_prefix_len _ lA
  have s2 : slice (Time.format t) 2 4 = fmtNat 2 t.minutes := by
    rw [Time.format]
    exact slice_middle _ lA (by omega) (by omega)
  have s3 : slice (Time.format t) 4 6 = fmtNat 2 t.seconds := by
    rw [Time.format, ← List.append_assoc]
    exact slice_last (by simp [lA, lB]) (by omega) (by omega)
  rw [Time.parse, if_neg (by omega), if_neg (by simp [hascii]), s1, s2, s3,
    pU_fmtNat (show t.hours ≤ 255 by omega),
    pU_fmtNat (show t.minutes ≤ 255 by omega),
    pU_fmtNat (show t.seconds ≤ 255 by omega)]
  simp only [RResult.bind_ok]
  rw [if_neg (by omega)]

theorem dateParse_ok {s : List Nat} {d : Date} (h : Date.parse s = .ok d) :
    d.day ≤ 31 ∧ d.month ≤ 12 ∧ d.year ≤ 99 := by
  rw [Date.parse] at h
  split at h
  · exact absurd h (by simp)
  rename_i hlen
  split at h
  · exact absurd h (by simp)
  simp only [RResult.bind_eq_ok, pU_eq_ok] at h
  obtain ⟨dd, hpd, mm, hpm, yy, hpy, hfin⟩ := h
  have hyy : yy ≤ 99 := by
    have := parseU_lt hpy
    have hsl : (slice s 4 6).length = 2 := slice_length 4 (by omega)
    rw [hsl] at this
    omega
  split at hfin
  · exact absurd hfin (by simp)
  · rename_i hcond
    push_neg at hcond
    injection hfin with hfin
    subst hfin
    exact ⟨hcond.1, hcond.2, hyy⟩

theorem dateFormat_spec {d : Date} (hd : d.day ≤ 31) (hm : d.month ≤ 12)
    (hy : d.year ≤ 99) :
    Date.parse (Date.format d) = .ok d ∧ (Date.format d).length = 6 ∧
      allAscii (Date.format d) = true := by
  have lA : (fmtNat 2 d.day).length = 2 := fmtNat_length (by omega) (by omega)
  have lB : (fmtNat 2 d.month).length = 2 := fmtNat_length (by omega) (by omega)
  have lC : (fmtNat 2 d.year).length = 2 := fmtNat_length (by omega) (by omega)
  have hlen : (Date.format d).length = 6 := by
    simp [Date.format, lA, lB, lC]
  have hascii : allAscii (Date.format d) = true := by
    simp [Date.format, allAscii_append, fmtNat_ascii]
  refine ⟨?_, hlen, hascii⟩
  have s1 : slice (Date.format d) 0 2 = fmtNat 2 d.day := by
    rw [Date.format]
    exact slice_prefix_len _ lA
  have s2 : slice (Date.format d) 2 4 = fmtNat 2 d.month := by
    rw [Date.format]
    exact slice_middle _ lA (by omega) (by omega)
  have s3 : slice (Date.format d) 4 6 = fmtNat 2 d.year := by
    rw [Date.format, ← List.append_assoc]
    exact slice_last (by simp [lA, lB]) (by omega) (by omega)
  rw [Date.parse, if_neg (by omega), if_neg (by simp [hascii]), s1, s2, s3,
    pU_fmtNat (show d.day ≤ 255 by omega),
    pU_fmtNat (show d.month ≤ 255 by omega),
    pU_fmtNat (show d.year ≤ 255 by omega)]
  simp only [RResult.bind_ok]
  rw [if_neg (by omega)]

theorem compassByte_ascii (c : Compass) : isAsciiByte c.byte = true := by
  cases c <;> decide

theorem latParse_ok {s : List Nat} {c : RawCoord} (h : latParse s = .ok c) :
    c.degrees ≤ 90 ∧ c.minute_thousandths ≤ 60000 ∧
      (c.sign = .North ∨ c.sign = .South) := by
  rw [latParse] at h
  split at h
  · exact absurd h (by simp)
  split at h
  · exact absurd h (by simp)
  simp only [RResult.bind_eq_ok, pU_eq_ok] at h
  obtain ⟨dg, hpd, mt, hpm, sg, hsg, hfin⟩ := h
  have hsgv : sg = Compass.North ∨ sg = Compass.South := by
    unfold latSign at hsg
    split at hsg
    · injection hsg with hsg
      exact Or.inl hsg.symm
    · injection hsg with hsg
      exact Or.inr hsg.symm
    · exact absurd hsg (by simp)
  split at hfin
  · exact absurd hfin (by simp)
  · rename_i hcond
    push_neg at hcond
    injection hfin with hfin
    subst hfin
    exact ⟨hcond.1, hcond.2, hsgv⟩

theorem latFormat_spec {c : RawCoord} (hd : c.degrees ≤ 90)
    (hm : c.minute_thousandths ≤ 60000) (hsg : c.sign = .North ∨ c.sign = .South) :
    latParse (latFormat c) = .ok c ∧ (latFormat c).length = 8 ∧
      allAscii (latFormat c) = true := by
  have lA : (fmtNat 2 c.degrees).length = 2 := fmtNat_length (by omega) (by omega)
  have lB : (fmtNat 5 c.minute_thousandths).length = 5 := fmtNat_length (by omega) (by omega)
  have hlen : (latFormat c).length = 8 := by
    simp [latFormat, lA, lB]
  have hascii : allAscii (latFormat c) = true := by
    simp [latFormat, allAscii_append, allAscii_cons, fmtNat_ascii, compassByte_ascii]
  refine ⟨?_, hlen, hascii⟩
  have s1 : slice (latFormat c) 0 2 = fmtNat 2 c.degrees := by
    rw [latFormat]
    exact slice_prefix_len _ lA
  have s2 : slice (latFormat c) 2 7 = fmtNat 5 c.minute_thousandths := by
    rw [latFormat]
    exact slice_middle _ lA (by omega) (by omega)
  have s3 : slice (latFormat c) 7 8 = [c.sign.byte] := by
    rw [latFormat, ← List.append_assoc]
    exact slice_last (by simp [lA, lB]) (by simp) (by omega)
  rw [latParse, if_neg (by omega), if_neg (by simp [hascii]), s1, s2, s3,
    pU_fmtNat (show c.degrees ≤ 255 by omega),
    pU_fmtNat (show c.minute_thousandths ≤ 65535 by omega)]
  simp only [RResult.bind_ok]
  rcases hsg with hsg | hsg <;>
    rw [hsg] <;> simp only [Compass.byte, latSign, RResult.bind_ok] <;>
    rw [if_neg (by omega)] <;>
    · congr 1
      cases c
      simp_all

theorem lonParse_ok {s : List Nat} {c : RawCoord} (h : lonParse s = .ok c) :
    c.degrees ≤ 180 ∧ c.minute_thousandths ≤ 60000 ∧
      (c.sign = .East ∨ c.sign = .West) := by
  rw [lonParse] at h
  split at h
  · exact absurd h (by simp)
  split at h
  · exact absurd h (by simp)
  simp only [RResult.bind_eq_ok, pU_eq_ok] at h
  obtain ⟨dg, hpd, mt, hpm, sg, hsg, hfin⟩ := h
  have hsgv : sg = Compass.East ∨ sg = Compass.West := by
    unfold lonSign at hsg
    split at hsg
    · injection hsg with hsg
      exact Or.inl hsg.symm
    · injection hsg with hsg
      exact Or.inr hsg.symm
    · exact absurd hsg (by simp)
  split at hfin
  · exact absurd hfin (by simp)
  · rename_i hcond
    push_neg at hcond
    injection hfin with hfin
    subst hfin
    exact ⟨hcond.1, hcond.2, hsgv⟩

theorem lonFormat_spec {c : RawCoord} (hd : c.degrees ≤ 180)
    (hm : c.minute_thousandths ≤ 60000) (hsg : c.sign = .East ∨ c.sign = .West) :
    lonParse (lonFormat c) = .ok c ∧ (lonFormat c).length = 9 ∧
      allAscii (lonFormat c) = true := by
  have lA : (fmtNat 3 c.degrees).length = 3 := fmtNat_length (by omega) (by omega)
  have lB : (fmtNat 5 c.minute_thousandths).length = 5 := fmtNat_length (by omega) (by omega)
  have hlen : (lonFormat c).length = 9 := by
    simp [lonFormat, lA, lB]
  have hascii : allAscii (lonFormat c) = true := by
    simp [lonFormat, allAscii_append, allAscii_cons, fmtNat_ascii, compassByte_ascii]
  refine ⟨?_, hlen, hascii⟩
  have s1 : slice (lonFormat c) 0 3 = fmtNat 3 c.degrees := by
    rw [lonFormat]
    exact slice_prefix_len _ lA
  have s2 : slice (lonFormat c) 3 8 = fmtNat 5 c.minute_thousandths := by
    rw [lonFormat]
    exact slice_middle _ lA (by omega) (by omega)
  have s3 : slice (lonFormat c) 8 9 = [c.sign.byte] := by
    rw [lonFormat, ← List.append_assoc]
    exact slice_last (by simp [lA, lB]) (by simp) (by omega)
  rw [lonParse, if_neg (by omega), if_neg (by simp [hascii]), s1, s2, s3,
    pU_fmtNat (show c.degrees ≤ 255 by omega),
    pU_fmtNat (show c.minute_thousandths ≤ 65535 by omega)]
  simp only [RResult.bind_ok]
  rcases hsg with hsg | hsg <;>
    rw [hsg] <;> simp only [Compass.byte, lonSign, RResult.bind_ok] <;>
    rw [if_neg (by omega)] <;>
    · congr 1
      cases c
      simp_all

theorem posParse_ok {s : List Nat} {p : RawPosition} (h : posParse s = .ok p) :
    (p.lat.degrees ≤ 90 ∧ p.lat.minute_thousandths ≤ 60000 ∧
      (p.lat.sign = .North ∨ p.lat.sign = .South)) ∧
    (p.lon.degrees ≤ 180 ∧ p.lon.minute_thousandths ≤ 60000 ∧
      (p.lon.sign = .East ∨ p.lon.sign = .West)) := by
  rw [posParse] at h
  split at h
  · exact absurd h (by simp)
  split at h
  · exact absurd h (by simp)
  simp only [RResult.bind_eq_ok] at h
  obtain ⟨la, hla, lo, hlo, hfin⟩ := h
  injection hfin with hfin
  subst hfin
  exact ⟨latParse_ok hla, lonParse_ok hlo⟩

theorem posFormat_spec {p : RawPosition}
    (h1 : p.lat.degrees ≤ 90 ∧ p.lat.minute_thousandths ≤ 60000 ∧
      (p.lat.sign = .North ∨ p.lat.sign = .South))
    (h2 : p.lon.degrees ≤ 180 ∧ p.lon.minute_thousandths ≤ 60000 ∧
      (p.lon.sign = .East ∨ p.lon.sign = .West)) :
    posParse (posFormat p) = .ok p ∧ (posFormat p).length = 17 ∧
      allAscii (posFormat p) = true := by
  obtain ⟨hla, lla, ala⟩ := latFormat_spec h1.1 h1.2.1 h1.2.2
  obtain ⟨hlo, llo, alo⟩ := lonFormat_spec h2.1 h2.2.1 h2.2.2
  have hlen : (posFormat p).length = 17 := by
    simp [posFormat, lla, llo]
  have hascii : allAscii (posFormat p) = true := by
    simp only [posFormat, allAscii_append, ala, alo]
    rfl
  refine ⟨?_, hlen, hascii⟩
  have s1 : slice (posFormat p) 0 8 = latFormat p.lat := by
    rw [posFormat]
    exact slice_prefix_len _ lla
  have s2 : slice (posFormat p) 8 17 = lonFormat p.lon := by
    rw [posFormat]
    exact slice_last lla (by omega) (by omega)
  rw [posParse, if_neg (by omega), if_neg (by simp [hascii]), s1, s2, hla, hlo]
  simp only [RResult.bind_ok]

/-! ### `src/records/extension.rs` -/

/-- The range part of a record extension; 1-indexed over the whole physical
line including the leading kind letter. -/
structure ExtensionRange where
  start_byte : Nat
  end_byte : Nat
deriving DecidableEq, Repr

/-- `ExtensionRange::parse` on a "SSEE" field: requires length 4, parses two
2-digit `u8` columns and rejects `end_byte < start_byte` with
`BadExtension`. -/
def ExtensionRange.parse (s : List Nat) : RResult ExtensionRange :=
  if s.length ≠ 4 then .err .SyntaxError
  else
    (pU 255 (slice s 0 2)).bind fun start_byte =>
    (pU 255 (slice s 2 4)).bind fun end_byte =>
    if end_byte < start_byte then .err .BadExtension
    else .ok ⟨start_byte, end_byte⟩

/-- `impl Display for ExtensionRange`: `"{:02}{:02}"`. -/
def ExtensionRange.format (r : ExtensionRange) : List Nat :=
  fmtNat 2 r.start_byte ++ fmtNat 2 r.end_byte

/-- A record extension: a range plus a three-character mnemonic. -/
structure Extension where
  range : ExtensionRange
  mnemonic : List Nat
deriving DecidableEq, Repr

/-- `Extension::parse` on a "SSEEMMM" chunk: requires length 7, parses the
range from the first four bytes, and takes bytes 4..7 as the mnemonic. -/
def Extension.parse (s : List Nat) : RResult Extension :=
  if s.length ≠ 7 then .err .SyntaxError
  else
    (ExtensionRange.parse (slice s 0 4)).bind fun range =>
    .ok ⟨range, slice s 4 7⟩

/-- `impl Display for Extension`. -/
def Extension.format (e : Extension) : List Nat :=
  e.range.format ++ e.mnemonic

/-- `Extendable::get_extension`, generic over the implementor's
`BASE_LENGTH` and `extension_string()`.  The source computes
`range.start_byte as usize - BASE_LENGTH - 1` with unchecked `usize`
arithmetic: when `start_byte = BASE_LENGTH` (the guard only rejects
`start_byte < BASE_LENGTH`) or `end_byte < BASE_LENGTH`, the subtraction
underflows, which is a panic in debug builds; the final `&ext_str[start..end]`
slice panics when the range is inverted or runs past the end. -/
def getExtension (baseLength : Nat) (ext_str : List Nat) (range : ExtensionRange) :
    RResult (List Nat) :=
  if range.start_byte < baseLength then .err .BadExtension
  else if range.start_byte < baseLength + 1 then .panic
  else if range.end_byte < baseLength then .panic
  else
    let start := range.start_byte - baseLength - 1
    let stop := range.end_byte - baseLength
    if start ≥ ext_str.length then .err .MissingExtension
    else strSlice ext_str start stop

/-- An extension-definition record (the common core of I and J records). -/
structure ExtensionDefRecord where
  num_extensions : Nat
  extensions : List Extension
deriving DecidableEq, Repr

/-- Fuel-driven worker for `chunks7`; the fuel only forces structural
recursion and never runs out when it starts at the list length. -/
def chunks7Aux : Nat → List Nat → List (List Nat)
  | 0, _ => []
  | _, [] => []
  | fuel + 1, l => l.take 7 :: chunks7Aux fuel (l.drop 7)

/-- `<[u8]>::chunks(7)`: consecutive 7-byte chunks, the last possibly
shorter. -/
def chunks7 (l : List Nat) : List (List Nat) := chunks7Aux l.length l

theorem chunks7Aux_congr :
    ∀ f1 f2 (l : List Nat), l.length ≤ f1 → l.length ≤ f2 →
      chunks7Aux f1 l = chunks7Aux f2 l := by
  intro f1
  induction f1 with
  | zero =>
    intro f2 l h1 _
    have : l = [] := List.eq_nil_of_length_eq_zero (by omega)
    subst this
    cases f2 <;> rfl
  | succ f1 ih =>
    intro f2 l h1 h2
    cases l with
    | nil => cases f2 <;> rfl
    | cons x r =>
      cases f2 with
      | zero => simp at h2
      | succ f2 =>
        simp only [chunks7Aux]
        congr 1
        simp only [List.length_cons] at h1 h2
        apply ih
        · simp only [List.length_drop, List.length_cons]
          omega
        · simp only [List.length_drop, List.length_cons]
          omega

/-- Chunking a list that starts with a full 7-byte block. -/
theorem chunks7_cons7 {xs : List Nat} (ys : List Nat) (h : xs.length = 7) :
    chunks7 (xs ++ ys) = xs :: chunks7 ys := by
  have hlen : (xs ++ ys).length = 6 + ys.length + 1 := by
    simp [h]
    omega
  cases hxy : xs ++ ys with
  | nil =>
    exfalso
    rcases List.append_eq_nil.mp hxy with ⟨h1, _⟩
    rw [h1] at h
    simp at h
  | cons z zs =>
    have hlen2 : (z :: zs).length = 6 + ys.length + 1 := by
      rw [← hxy]
      exact hlen
    rw [chunks7, hlen2]
    show (z :: zs).take 7 :: chunks7Aux (6 + ys.length) ((z :: zs).drop 7) =
      xs :: chunks7 ys
    rw [← hxy]
    have htake : (xs ++ ys).take 7 = xs := by
      rw [← h]
      exact List.take_left xs ys
    have hdrop : (xs ++ ys).drop 7 = ys := by
      rw [← h]
      simp
    rw [htake, hdrop, chunks7]
    congr 1
    exact chunks7Aux_congr _ _ ys (by omega) (by omega)

@[simp] theorem chunks7_nil : chunks7 [] = [] := rfl

/-- `.map(Extension::parse).collect::<Result<_, _>>()`: decode every chunk,
stopping at the first failure. -/
def parseChunks : List (List Nat) → RResult (List Extension)
  | [] => .ok []
  | c :: cs =>
    (Extension.parse c).bind fun e =>
    (parseChunks cs).bind fun es =>
    .ok (e :: es)

/-- `ExtensionDefRecord::parse`: asserts the first byte is `I` or `J`
(`line.as_bytes()[0]` panics on an empty line), requires length ≥ 3, parses
the 2-digit `u8` count from `line[1..3]` (a slice that panics when byte
index 3 is not a character boundary), requires the exact length
`3 + 7 * count`, then decodes the 7-byte chunks of `line[3..]`. -/
def ExtensionDefRecord.parse (line : List Nat) : RResult ExtensionDefRecord :=
  match line.head? with
  | none => .panic
  | some b =>
    if b ≠ 73 ∧ b ≠ 74 then .panic
    else if line.length < 3 then .err .SyntaxError
    else
      (strSlice line 1 3).bind fun cnt =>
      (pU 255 cnt).bind fun num_extensions =>
      if line.length ≠ 3 + 7 * num_extensions then .err .SyntaxError
      else
        (parseChunks (chunks7 (line.drop 3))).bind fun extensions =>
        .ok ⟨num_extensions, extensions⟩

/-- `ExtensionDefRecord::fmt`, parameterised by the record letter. -/
def ExtensionDefRecord.format (letter : Nat) (r : ExtensionDefRecord) : List Nat :=
  letter :: (fmtNat 2 r.num_extensions ++ (r.extensions.map Extension.format).flatten)

/-! ### `src/records/a_record.rs` -/

/-- The manufacturer table. -/
inductive Manufacturer where
  | Aircotec
  | CambridgeAeroInstruments
  | ClearNavInstruments
  | DataSwan
  | EwAvionics
  | Filser
  | Flarm
  | Flytech
  | Garrecht
  | ImiGlidingEquipment
  | Logstream
  | LxNavigation
  | LxNav
  | Naviter
  | NewTechnologies
  | NielsenKellerman
  | Peschges
  | PressFinishElectronics
  | PrintTechnik
  | Scheffel
  | StreamlineDataInstruments
  | TriadisEngineering
  | Zander
  | UnknownSingle (b : Nat)
  | UnknownTriple (s : List Nat)
deriving DecidableEq, Repr

/-- `Manufacturer::parse_single_char`. -/
def Manufacturer.parse_single_char (character : Nat) : Manufacturer :=
  if character = 73 then .Aircotec
  else if character = 67 then .CambridgeAeroInstruments
  else if character = 68 then .DataSwan
  else if character = 69 then .EwAvionics
  else if character = 70 then .Filser
  else if character = 71 then .Flarm
  else if character = 65 then .Garrecht
  else if character = 77 then .ImiGlidingEquipment
  else if character = 76 then .LxNavigation
  else if character = 86 then .LxNav
  else if character = 78 then .NewTechnologies
  else if character = 75 then .NielsenKellerman
  else if character = 80 then .Peschges
  else if character = 82 then .PrintTechnik
  else if character = 72 then .Scheffel
  else if character = 83 then .StreamlineDataInstruments
  else if character = 84 then .TriadisEngineering
  else if character = 90 then .Zander
  else .UnknownSingle character

/-- `Manufacturer::parse_triple_char` (byte values of the three-letter
codes, e.g. `[65, 67, 84]` is "ACT"). -/
def Manufacturer.parse_triple_char (triple : List Nat) : Manufacturer :=
  if triple = [65, 67, 84] then .Aircotec
  else if triple = [67, 65, 77] then .CambridgeAeroInstruments
  else if triple = [67, 78, 73] then .ClearNavInstruments
  else if triple = [68, 83, 88] then .DataSwan
  else if triple = [69, 87, 65] then .EwAvionics
  else if triple = [70, 73, 76] then .Filser
  else if triple = [70, 76, 65] then .Flarm
  else if triple = [70, 76, 89] then .Flytech
  else if triple = [71, 67, 83] then .Garrecht
  else if triple = [73, 77, 73] then .ImiGlidingEquipment
  else if triple = [76, 71, 83] then .Logstream
  else if triple = [76, 88, 78] then .LxNavigation
  else if triple = [76, 88, 86] then .LxNav
  else if triple = [78, 65, 86] then .Naviter
  else if triple = [78, 84, 69] then .NewTechnologies
  else if triple = [78, 75, 76] then .NielsenKellerman
  else if triple = [80, 69, 83] then .Peschges
  else if triple = [80, 70, 69] then .PressFinishElectronics
  else if triple = [80, 82, 84] then .PrintTechnik
  else if triple = [83, 67, 72] then .Scheffel
  else if triple = [83, 68, 73] then .StreamlineDataInstruments
  else if triple = [84, 82, 73] then .TriadisEngineering
  else if triple = [90, 65, 78] then .Zander
  else .UnknownTriple triple

/-- `Manufacturer::to_single_char`. -/
def Manufacturer.to_single_char : Manufacturer → Option Nat
  | .Aircotec => some 73
  | .CambridgeAeroInstruments => some 67
  | .DataSwan => some 68
  | .EwAvionics => some 69
  | .Filser => some 70
  | .Flarm => some 71
  | .Garrecht => some 65
  | .ImiGlidingEquipment => some 77
  | .LxNavigation => some 76
  | .LxNav => some 86
  | .NewTechnologies => some 78
  | .NielsenKellerman => some 75
  | .Peschges => some 80
  | .PrintTechnik => some 82
  | .Scheffel => some 72
  | .StreamlineDataInstruments => some 83
  | .TriadisEngineering => some 84
  | .Zander => some 90
  | .UnknownSingle b => some b
  | _ => none

/-- `Manufacturer::to_triple_char`. -/
def Manufacturer.to_triple_char : Manufacturer → Option (List Nat)
  | .Aircotec => some [65, 67, 84]
  | .CambridgeAeroInstruments => some [67, 65, 77]
  | .ClearNavInstruments => some [67, 78, 73]
  | .DataSwan => some [68, 83, 88]
  | .EwAvionics => some [69, 87, 65]
  | .Filser => some [70, 73, 76]
  | .Flarm => some [70, 76, 65]
  | .Flytech => some [70, 76, 89]
  | .Garrecht => some [71, 67, 83]
  | .ImiGlidingEquipment => some [73, 77, 73]
  | .Logstream => some [76, 71, 83]
  | .LxNavigation => some [76, 88, 78]
  | .LxNav => some [76, 88, 86]
  | .Naviter => some [78, 65, 86]
  | .NewTechnologies => some [78, 84, 69]
  | .NielsenKellerman => some [78, 75, 76]
  | .Peschges => some [80, 69, 83]
  | .PressFinishElectronics => some [80, 70, 69]
  | .PrintTechnik => some [80, 82, 84]
  | .Scheffel => some [83, 67, 72]
  | .StreamlineDataInstruments => some [83, 68, 73]
  | .TriadisEngineering => some [84, 82, 73]
  | .Zander => some [90, 65, 78]
  | .UnknownTriple s => some s
  | _ => none

/-- `DisplayOption`: render `Some` transparently and `None` as nothing
(`src/util/display_option.rs`). -/
def displayOption : Option (List Nat) → List Nat
  | some x => x
  | none => []

/-- The FVU ID record. -/
structure ARecord where
  manufacturer : Manufacturer
  unique_id : List Nat
  id_extension : Option (List Nat)
deriving DecidableEq, Repr

/-- `ARecord::parse`: asserts `&line[0..1] == "A"` (a panic on violation),
requires length ≥ 7 and the first 7 bytes ASCII, reads the manufacturer as
a triple-letter code from bytes 1..4, the unique id from bytes 4..7, and
the rest (if any) as the id extension. -/
def ARecord.parse (line : List Nat) : RResult ARecord :=
  (strSlice line 0 1).bind fun first =>
  if first ≠ [65] then .panic
  else if line.length < 7 then .err .SyntaxError
  else if allAscii (line.take 7) = false then .err .NonASCIICharacters
  else
    .ok ⟨Manufacturer.parse_triple_char (slice line 1 4), slice line 4 7,
         if line.length > 7 then some (line.drop 7) else none⟩

/-- `impl Display for ARecord`. -/
def ARecord.format (r : ARecord) : List Nat :=
  65 :: (displayOption r.manufacturer.to_triple_char ++
    (r.unique_id ++ displayOption r.id_extension))

/-! ### `src/records/b_record.rs` -/

/-- The fix-valid flag of a B record. -/
inductive FixValid where
  | Valid
  | NavWarning
deriving DecidableEq, Repr

/-- The `match &line[24..25] { "A" => Valid, "V" => NavWarning, _ =>
SyntaxError }` step of `BRecord::parse`. -/
def fixValidParse (b : List Nat) : RResult FixValid :=
  match b with
  | [65] => .ok FixValid.Valid
  | [86] => .ok FixValid.NavWarning
  | _ => .err .SyntaxError

/-- The fix-valid letter written by `impl Display for BRecord`. -/
def FixValid.byte : FixValid → Nat
  | .Valid => 65
  | .NavWarning => 86

/-- A fix record. -/
structure BRecord where
  timestamp : Time
  pos : RawPosition
  fix_valid : FixValid
  pressure_alt : Int
  gps_alt : Int
  extension_string : List Nat
deriving DecidableEq, Repr

/-- `BRecord::parse`: requires length ≥ 35 (`BASE_LENGTH`) and the whole
line ASCII, then reads time bytes 1..7, position 7..24, fix-valid letter
24..25, `i16` altitudes 25..30 and 30..35, and keeps bytes 35.. as the
extension string. -/
def BRecord.parse (line : List Nat) : RResult BRecord :=
  if line.length < 35 then .err .SyntaxError
  else if allAscii line = false then .err .NonASCIICharacters
  else
    (Time.parse (slice line 1 7)).bind fun timestamp =>
    (posParse (slice line 7 24)).bind fun pos =>
    (fixValidParse (slice line 24 25)).bind fun fix_valid =>
    (pI (-32768) 32767 (slice line 25 30)).bind fun pressure_alt =>
    (pI (-32768) 32767 (slice line 30 35)).bind fun gps_alt =>
    .ok ⟨timestamp, pos, fix_valid, pressure_alt, gps_alt, line.drop 35⟩

/-- `impl Display for BRecord`:
`"B{timestamp}{pos}{valid}{pressure_alt:05}{gps_alt:05}{extension_string}"`. -/
def BRecord.format (r : BRecord) : List Nat :=
  66 :: (r.timestamp.format ++ (posFormat r.pos ++ (r.fix_valid.byte ::
    (fmtInt 5 r.pressure_alt ++ (fmtInt 5 r.gps_alt ++ r.extension_string)))))

/-- `Extendable for BRecord`: `BASE_LENGTH = 35`. -/
def BRecord.get_extension (r : BRecord) (range : ExtensionRange) : RResult (List Nat) :=
  getExtension 35 r.extension_string range

/-! ### `src/records/c_record.rs` -/

/-- A C record task declaration. -/
structure CRecordDeclaration where
  date : Date
  time : Time
  flight_date : Date
  task_id : Nat
  turnpoint_count : Int
  task_name : Option (List Nat)
deriving DecidableEq, Repr

/-- `CRecordDeclaration::parse`: requires length ≥ 25 and the first 25
bytes ASCII, asserts the first byte is `C`, then reads date 1..7, time
7..13, flight date 13..19, `u16` task id 19..23, `i8` turnpoint count
23..25, and the rest (if any) as the task name. -/
def CRecordDeclaration.parse (line : List Nat) : RResult CRecordDeclaration :=
  if line.length < 25 then .err .SyntaxError
  else if allAscii (line.take 25) = false then .err .NonASCIICharacters
  else if line.head? ≠ some 67 then .panic
  else
    (Date.parse (slice line 1 7)).bind fun date =>
    (Time.parse (slice line 7 13)).bind fun time =>
    (Date.parse (slice line 13 19)).bind fun flight_date =>
    (pU 65535 (slice line 19 23)).bind fun task_id =>
    (pI (-128) 127 (slice line 23 25)).bind fun turnpoint_count =>
    .ok ⟨date, time, flight_date, task_id, turnpoint_count,
         if line.length > 25 then some (line.drop 25) else none⟩

/-- `impl Display for CRecordDeclaration`:
`"C{date}{time}{flight_date}{task_id:04}{tp_count:02}{task_name}"`. -/
def CRecordDeclaration.format (r : CRecordDeclaration) : List Nat :=
  67 :: (r.date.format ++ (r.time.format ++ (r.flight_date.format ++
    (fmtNat 4 r.task_id ++ (fmtInt 2 r.turnpoint_count ++
      displayOption r.task_name)))))

/-- A C record task turnpoint. -/
structure CRecordTurnpoint where
  position : RawPosition
  turnpoint_name : Option (List Nat)
deriving DecidableEq, Repr

/-- `CRecordTurnpoint::parse`: requires length ≥ 18 and the first 18 bytes
ASCII, asserts the first byte is `C`, reads the position from bytes 1..18
and the rest (if any) as the turnpoint name. -/
def CRecordTurnpoint.parse (line : List Nat) : RResult CRecordTurnpoint :=
  if line.length < 18 then .err .SyntaxError
  else if allAscii (line.take 18) = false then .err .NonASCIICharacters
  else if line.head? ≠ some 67 then .panic
  else
    (posParse (slice line 1 18)).bind fun position =>
    .ok ⟨position, if line.length > 18 then some (line.drop 18) else none⟩

/-- `impl Display for CRecordTurnpoint`. -/
def CRecordTurnpoint.format (r : CRecordTurnpoint) : List Nat :=
  67 :: (posFormat r.position ++ displayOption r.turnpoint_name)

/-! ### `src/records/d_record.rs` -/

/-- The GPS qualifier of a D record: a closed two-variant enumeration with
no fallback for unrecognized bytes. -/
inductive GpsQualifier where
  | Gps
  | DGps
deriving DecidableEq, Repr

/-- The `match bytes[1] { b'1' => Gps, b'2' => DGps, _ => SyntaxError }`
step of `DRecord::parse`. -/
def gpsQualifierParse (b : Nat) : RResult GpsQualifier :=
  if b = 49 then .ok GpsQualifier.Gps
  else if b = 50 then .ok GpsQualifier.DGps
  else .err .SyntaxError

def GpsQualifier.byte : GpsQualifier → Nat
  | .Gps => 49
  | .DGps => 50

/-- A differential-GPS station record. -/
structure DRecord where
  qualifier : GpsQualifier
  station_id : List Nat
deriving DecidableEq, Repr

/-- `DRecord::parse`: the source `assert_eq!(line.len(), 6)` makes any
D-led line of a different length a panic, not a parse error; it then
asserts the first byte is `D`, matches the qualifier byte and keeps bytes
2..6 as the station id. -/
def DRecord.parse (line : List Nat) : RResult DRecord :=
  if line.length ≠ 6 then .panic
  else if line.head? ≠ some 68 then .panic
  else
    (gpsQualifierParse (line.getD 1 0)).bind fun qualifier =>
    .ok ⟨qualifier, slice line 2 6⟩

/-- Modelled from the spec: `DRecord` has no `Display` impl anywhere under
`src/`, although `impl Display for Record` in `src/records/mod.rs` requires
one; §4.5 states the canonical formatter is the exact inverse of decoding
and the §4.3 table gives kind D no tail, so the record renders as the kind
letter, the qualifier digit, and the 4-byte station id. -/
def DRecord.format (r : DRecord) : List Nat :=
  68 :: (r.qualifier.byte :: r.station_id)

/-! ### `src/records/e_record.rs` -/

/-- An event record. -/
structure ERecord where
  time : Time
  mnemonic : List Nat
  text : Option (List Nat)
deriving DecidableEq, Repr

/-- `ERecord::parse`: requires length ≥ 10 and the first 10 bytes ASCII,
asserts the first byte is `E`, reads time 1..7, mnemonic 7..10, and the
rest (if any) as free text. -/
def ERecord.parse (line : List Nat) : RResult ERecord :=
  if line.length < 10 then .err .SyntaxError
  else if allAscii (line.take 10) = false then .err .NonASCIICharacters
  else if line.head? ≠ some 69 then .panic
  else
    (Time.parse (slice line 1 7)).bind fun time =>
    .ok ⟨time, slice line 7 10,
         if line.length > 10 then some (line.drop 10) else none⟩

/-- `impl Display for ERecord`. -/
def ERecord.format (r : ERecord) : List Nat :=
  69 :: (r.time.format ++ (r.mnemonic ++ displayOption r.text))

/-! ### `src/records/f_record.rs` -/

/-- A satellite-constellation record; the satellite array is kept as its
raw string. -/
structure FRecord where
  time : Time
  satellites : List Nat
deriving DecidableEq, Repr

/-- `FRecord::parse`: requires length ≥ 7 and the whole line ASCII, reads
time 1..7, and requires the remaining satellite array to have even
length. -/
def FRecord.parse (line : List Nat) : RResult FRecord :=
  if line.length < 7 then .err .SyntaxError
  else if allAscii line = false then .err .NonASCIICharacters
  else
    (Time.parse (slice line 1 7)).bind fun time =>
    if (line.drop 7).length % 2 ≠ 0 then .err .SyntaxError
    else .ok ⟨time, line.drop 7⟩

/-- `impl Display for FRecord`. -/
def FRecord.format (r : FRecord) : List Nat :=
  70 :: (r.time.format ++ r.satellites)

/-! ### `src/records/g_record.rs` and `src/records/l_record.rs` -/

/-- A security record. -/
structure GRecord where
  data : List Nat
deriving DecidableEq, Repr

/-- `GRecord::parse`: asserts the first byte is `G` (`line.as_bytes()[0]`
panics on an empty line) and keeps everything after it. -/
def GRecord.parse (line : List Nat) : RResult GRecord :=
  match line.head? with
  | none => .panic
  | some b => if b ≠ 71 then .panic else .ok ⟨line.drop 1⟩

/-- `impl Display for GRecord`. -/
def GRecord.format (r : GRecord) : List Nat := 71 :: r.data

/-- A plaintext log record. -/
structure LRecord where
  log_string : List Nat
deriving DecidableEq, Repr

/-- `LRecord::parse`: asserts the first byte is `L` and keeps everything
after it. -/
def LRecord.parse (line : List Nat) : RResult LRecord :=
  match line.head? with
  | none => .panic
  | some b => if b ≠ 76 then .panic else .ok ⟨line.drop 1⟩

/-- `impl Display for LRecord`. -/
def LRecord.format (r : LRecord) : List Nat := 76 :: r.log_string

/-! ### `src/records/h_record.rs` -/

/-- The data source of an H record, with an `Unrecognized` fallback
carrying the raw byte. -/
inductive DataSource where
  | FVU
  | OfficialObserver
  | Pilot
  | Unrecognized (b : Nat)
deriving DecidableEq, Repr

/-- `DataSource::from_byte`. -/
def DataSource.from_byte (b : Nat) : DataSource :=
  if b = 70 then .FVU
  else if b = 79 then .OfficialObserver
  else if b = 80 then .Pilot
  else .Unrecognized b

/-- `DataSource::to_byte`. -/
def DataSource.to_byte : DataSource → Nat
  | .FVU => 70
  | .OfficialObserver => 79
  | .Pilot => 80
  | .Unrecognized b => b

/-- A header record. -/
structure HRecord where
  data_source : DataSource
  mnemonic : List Nat
  friendly_name : Option (List Nat)
  data : List Nat
deriving DecidableEq, Repr

/-- `str::find(c)` for a single ASCII needle: the byte index of the first
occurrence. -/
def findByteIdx (b : Nat) : List Nat → Option Nat
  | [] => none
  | x :: xs => if x = b then some 0 else (findByteIdx b xs).map (· + 1)

/-- `HRecord::parse`: asserts the first byte is `H`, requires length ≥ 6
and the first 5 bytes ASCII, reads the data-source byte and mnemonic 2..5,
then splits the remainder at the first colon: the part before it becomes
the friendly name (possibly empty), the part after it the data; without a
colon the whole remainder is data and the name is absent. -/
def HRecord.parse (line : List Nat) : RResult HRecord :=
  match line.head? with
  | none => .panic
  | some b0 =>
    if b0 ≠ 72 then .panic
    else if line.length < 6 then .err .SyntaxError
    else if allAscii (line.take 5) = false then .err .NonASCIICharacters
    else
      let rest := line.drop 5
      match findByteIdx 58 rest with
      | some colon_idx =>
        .ok ⟨DataSource.from_byte (line.getD 1 0), slice line 2 5,
             some (rest.take colon_idx), rest.drop (colon_idx + 1)⟩
      | none =>
        .ok ⟨DataSource.from_byte (line.getD 1 0), slice line 2 5, none, rest⟩

/-- `impl Display for HRecord`: the colon disappears entirely when the
friendly name is absent. -/
def HRecord.format (r : HRecord) : List Nat :=
  match r.friendly_name with
  | some n => 72 :: (r.data_source.to_byte :: (r.mnemonic ++ (n ++ (58 :: r.data))))
  | none => 72 :: (r.data_source.to_byte :: (r.mnemonic ++ r.data))

/-! ### `src/records/k_record.rs` -/

/-- An extension data record. -/
structure KRecord where
  time : Time
  extension_string : List Nat
deriving DecidableEq, Repr

/-- `KRecord::parse`: asserts the first byte is `K`, requires length > 7,
then slices `line[1..7]` — a slice that panics when byte index 7 is not a
character boundary — parses it as a time, and keeps bytes 7.. as the
extension string. -/
def KRecord.parse (line : List Nat) : RResult KRecord :=
  match line.head? with
  | none => .panic
  | some b0 =>
    if b0 ≠ 75 then .panic
    else if line.length ≤ 7 then .err .SyntaxError
    else
      (strSlice line 1 7).bind fun ts =>
      (Time.parse ts).bind fun time =>
      .ok ⟨time, line.drop 7⟩

/-- `impl Display for KRecord`. -/
def KRecord.format (r : KRecord) : List Nat :=
  75 :: (r.time.format ++ r.extension_string)

/-- `Extendable for KRecord`: `BASE_LENGTH = 7`. -/
def KRecord.get_extension (r : KRecord) (range : ExtensionRange) : RResult (List Nat) :=
  getExtension 7 r.extension_string range

/-! ### `src/records/mod.rs`: the record sum type and dispatcher -/

/-- Sum type of all possible records of a file. -/
inductive Record where
  | A (r : ARecord)
  | B (r : BRecord)
  | CDeclaration (r : CRecordDeclaration)
  | CTurnpoint (r : CRecordTurnpoint)
  | D (r : DRecord)
  | E (r : ERecord)
  | F (r : FRecord)
  | G (r : GRecord)
  | H (r : HRecord)
  | I (r : ExtensionDefRecord)
  | J (r : ExtensionDefRecord)
  | K (r : KRecord)
  | L (r : LRecord)
  | Unrecognised (line : List Nat)
deriving DecidableEq, Repr

/-- `Record::parse_line`: an empty line is a `SyntaxError`; otherwise the
first byte selects the codec.  A `C`-led line needs at least 9 bytes and
is a turnpoint exactly when its 9th byte is `N` or `S`, a declaration
otherwise.  Any unknown first byte yields `Unrecognised` with the whole
line.  (The `I`/`J` codecs of `i_record.rs`/`j_record.rs` both reduce to
`ExtensionDefRecord::parse`.) -/
def Record.parse_line (line : List Nat) : RResult Record :=
  match line.head? with
  | none => .err .SyntaxError
  | some b =>
    if b = 65 then (ARecord.parse line).map .A
    else if b = 66 then (BRecord.parse line).map .B
    else if b = 67 then
      if line.length < 9 then .err .SyntaxError
      else if line.getD 8 0 = 78 ∨ line.getD 8 0 = 83 then
        (CRecordTurnpoint.parse line).map .CTurnpoint
      else (CRecordDeclaration.parse line).map .CDeclaration
    else if b = 68 then (DRecord.parse line).map .D
    else if b = 69 then (ERecord.parse line).map .E
    else if b = 70 then (FRecord.parse line).map .F
    else if b = 71 then (GRecord.parse line).map .G
    else if b = 72 then (HRecord.parse line).map .H
    else if b = 73 then (ExtensionDefRecord.parse line).map .I
    else if b = 74 then (ExtensionDefRecord.parse line).map .J
    else if b = 75 then (KRecord.parse line).map .K
    else if b = 76 then (LRecord.parse line).map .L
    else .ok (.Unrecognised line)

/-- `impl Display for Record`, delegating to each variant's formatter
(with `DRecord`'s formatter modelled from the spec, see `DRecord.format`). -/
def Record.format : Record → List Nat
  | .A r => r.format
  | .B r => r.format
  | .CDeclaration r => r.format
  | .CTurnpoint r => r.format
  | .D r => r.format
  | .E r => r.format
  | .F r => r.format
  | .G r => r.format
  | .H r => r.format
  | .I r => r.format 73
  | .J r => r.format 74
  | .K r => r.format
  | .L r => r.format
  | .Unrecognised line => line

/-- The kind letter written by each `Display` implementation (the letter
`Record::parse_line` dispatches on); `Unrecognised` lines have none. -/
def Record.kindByte : Record → Option Nat
  | .A _ => some 65
  | .B _ => some 66
  | .CDeclaration _ => some 67
  | .CTurnpoint _ => some 67
  | .D _ => some 68
  | .E _ => some 69
  | .F _ => some 70
  | .G _ => some 71
  | .H _ => some 72
  | .I _ => some 73
  | .J _ => some 74
  | .K _ => some 75
  | .L _ => some 76
  | .Unrecognised _ => none

/-- The first bytes `Record::parse_line` recognises (everything else becomes
`Unrecognised`). -/
def kindLetters : List Nat := [65, 66, 67, 68, 69, 70, 71, 72, 73, 74, 75, 76]

/-- The byte string "FooTheBar". -/
def fooTheBar : List Nat := [70, 111, 111, 84, 104, 101, 66, 97, 114]

/-- A B record whose free-text tail is "FooTheBar". -/
def exampleBFoo : BRecord :=
  ⟨⟨0, 0, 0⟩, ⟨⟨0, 0, .North⟩, ⟨0, 0, .East⟩⟩, .Valid, 0, 0, fooTheBar⟩

/-- A B record whose free-text tail is "0123456789". -/
def exampleBDigits : BRecord :=
  ⟨⟨0, 0, 0⟩, ⟨⟨0, 0, .North⟩, ⟨0, 0, .East⟩⟩, .Valid, 0, 0,
    [48, 49, 50, 51, 52, 53, 54, 55, 56, 57]⟩

/-! ### More helpers for decomposing formatted lines -/

theorem slice_skip {xs ys : List Nat} {a b n : Nat} (h : xs.length = n)
    (ha : n ≤ a) : slice (xs ++ ys) a b = slice ys (a - n) (b - n) := by
  subst h
  simp only [slice, List.drop_append_eq_append_drop]
  have h1 : xs.drop a = [] := List.drop_eq_nil_of_le ha
  rw [h1]
  simp only [List.nil_append]
  congr 1
  omega

theorem slice_cons_skip {x : Nat} {s : List Nat} {a b : Nat} (ha : 1 ≤ a) :
    slice (x :: s) a b = slice s (a - 1) (b - 1) := by
  have := @slice_skip [x] s a b 1 rfl ha
  simpa using this

theorem drop_skip {xs ys : List Nat} {n m : Nat} (h : xs.length = n)
    (hn : n ≤ m) : (xs ++ ys).drop m = ys.drop (m - n) := by
  subst h
  simp only [List.drop_append_eq_append_drop]
  rw [List.drop_eq_nil_of_le hn]
  simp

theorem take_skip {xs ys : List Nat} {n m : Nat} (h : xs.length = n)
    (hn : n ≤ m) : (xs ++ ys).take m = xs ++ ys.take (m - n) := by
  subst h
  simp only [List.take_append_eq_append_take]
  rw [List.take_of_length_le hn]

theorem allAscii_drop {l : List Nat} (n : Nat) (h : allAscii l = true) :
    allAscii (l.drop n) = true := by
  simp only [allAscii, List.all_eq_true] at h ⊢
  intro b hb
  exact h b (List.mem_of_mem_drop hb)

theorem allAscii_take {l : List Nat} (n : Nat) (h : allAscii l = true) :
    allAscii (l.take n) = true := by
  simp only [allAscii, List.all_eq_true] at h ⊢
  intro b hb
  exact h b (List.mem_of_mem_take hb)

theorem allAscii_slice {l : List Nat} (a b : Nat) (h : allAscii l = true) :
    allAscii (slice l a b) = true := by
  rw [slice]
  exact allAscii_take _ (allAscii_drop _ h)

theorem getD_drop (l : List Nat) (n : Nat) : (l.drop n).getD 0 0 = l.getD n 0 := by
  induction n generalizing l with
  | zero => rfl
  | succ n ih =>
    cases l with
    | nil => rfl
    | cons x s => exact ih s

theorem getD_append_right {xs ys : List Nat} {n : Nat} (h : xs.length ≤ n) :
    (xs ++ ys).getD n 0 = ys.getD (n - xs.length) 0 := by
  induction xs generalizing n with
  | nil => simp
  | cons x s ih =>
    cases n with
    | zero => simp at h
    | succ n =>
      simp only [List.length_cons] at h
      show (s ++ ys).getD n 0 = _
      rw [ih (by omega)]
      congr 1
      simp only [List.length_cons]
      omega

theorem head?_eq_getD {l : List Nat} (h : l ≠ []) : l.head? = some (l.getD 0 0) := by
  cases l with
  | nil => exact absurd rfl h
  | cons x s => rfl

theorem getD_append_left {xs ys : List Nat} {n : Nat} (h : n < xs.length) :
    (xs ++ ys).getD n 0 = xs.getD n 0 := by
  induction xs generalizing n with
  | nil => simp at h
  | cons x s ih =>
    cases n with
    | zero => rfl
    | succ n =>
      simp only [List.length_cons] at h
      exact ih (by omega)

theorem isContByte_of_ascii {b : Nat} (h : b < 128) : isContByte b = false := by
  simp only [isContByte, Bool.and_eq_false_iff, decide_eq_false_iff_not]
  left
  omega

theorem ascii_getD {s : List Nat} {n : Nat} (h : allAscii s = true)
    (hn : n < s.length) : s.getD n 0 < 128 := by
  induction s generalizing n with
  | nil => simp at hn
  | cons x t ih =>
    rw [allAscii_cons, Bool.and_eq_true] at h
    cases n with
    | zero =>
      have := h.1
      simp only [isAsciiByte, decide_eq_true_eq] at this
      exact this
    | succ n =>
      simp only [List.length_cons] at hn
      exact ih h.2 (by omega)

theorem isCharBoundary_intro {s : List Nat} {i : Nat} (hi : i < s.length)
    (hb : isContByte (s.getD i 0) = false) : isCharBoundary s i = true := by
  have hc : (decide (i < s.length) && !isContByte (s.getD i 0)) = true := by
    rw [hb]
    simp [hi]
  unfold isCharBoundary
  rw [hc]
  simp

theorem isCharBoundary_zero (s : List Nat) : isCharBoundary s 0 = true := by
  simp [isCharBoundary]

theorem isCharBoundary_length (s : List Nat) : isCharBoundary s s.length = true := by
  simp [isCharBoundary]

theorem isCharBoundary_elim {s : List Nat} {i : Nat}
    (h : isCharBoundary s i = true) (h0 : i ≠ 0) (hl : i ≠ s.length) :
    isContByte (s.getD i 0) = false := by
  unfold isCharBoundary at h
  have hz : (i == 0) = false := by simp [h0]
  have hlf : (i == s.length) = false := by simp [hl]
  rw [hz, hlf] at h
  simp only [Bool.false_or, Bool.and_eq_true, decide_eq_true_eq,
    Bool.not_eq_true'] at h
  exact h.2

/-! ### Round trips of the individual record codecs

Every value that a codec can return decodes back from its own rendering:
`parse l = ok r` implies `parse (format r) = ok r`. -/

theorem gRecord_roundtrip {l : List Nat} {r : GRecord}
    (h : GRecord.parse l = .ok r) :
    GRecord.parse (GRecord.format r) = .ok r := by
  cases l with
  | nil => exact absurd h (by simp [GRecord.parse])
  | cons b rest =>
    simp only [GRecord.parse, List.head?] at h
    by_cases hb : b = 71
    · subst hb
      rw [if_neg (by simp)] at h
      injection h with h
      subst h
      rfl
    · rw [if_pos hb] at h
      exact absurd h (by simp)

theorem lRecord_roundtrip {l : List Nat} {r : LRecord}
    (h : LRecord.parse l = .ok r) :
    LRecord.parse (LRecord.format r) = .ok r := by
  cases l with
  | nil => exact absurd h (by simp [LRecord.parse])
  | cons b rest =>
    simp only [LRecord.parse, List.head?] at h
    by_cases hb : b = 76
    · subst hb
      rw [if_neg (by simp)] at h
      injection h with h
      subst h
      rfl
    · rw [if_pos hb] at h
      exact absurd h (by simp)

theorem dRecord_roundtrip {l : List Nat} {r : DRecord}
    (h : DRecord.parse l = .ok r) :
    DRecord.parse (DRecord.format r) = .ok r := by
  rw [DRecord.parse] at h
  split at h
  · exact absurd h (by simp)
  split at h
  · exact absurd h (by simp)
  rename_i hlen hhead
  simp only [RResult.bind_eq_ok] at h
  obtain ⟨q, hq, hfin⟩ := h
  injection hfin with hfin
  subst hfin
  have hst : (slice l 2 6).length = 4 := slice_length 2 (by omega)
  rw [DRecord.parse, if_neg (by simp [DRecord.format, hst]), if_neg (by simp [DRecord.format])]
  have hq2 : (DRecord.format ⟨q, slice l 2 6⟩).getD 1 0 = q.byte := rfl
  rw [hq2]
  have hq3 : gpsQualifierParse q.byte = .ok q := by cases q <;> rfl
  rw [hq3, RResult.bind_ok]
  have hsl : slice (DRecord.format ⟨q, slice l 2 6⟩) 2 6 = slice l 2 6 := by
    show slice (68 :: (q.byte :: slice l 2 6)) 2 6 = slice l 2 6
    rw [slice_cons_skip (by omega), slice_cons_skip (by omega)]
    show slice (slice l 2 6) 0 4 = slice l 2 6
    rw [slice_zero, ← hst, List.take_length]
  rw [hsl]

theorem slice_take_of_le {l : List Nat} {a b k : Nat} (hb : b ≤ k) :
    slice (l.take k) a b = slice l a b := by
  simp only [slice, List.drop_take, List.take_take]
  congr 1
  omega

theorem kRecord_roundtrip {l : List Nat} {r : KRecord}
    (h : KRecord.parse l = .ok r) :
    KRecord.parse (KRecord.format r) = .ok r := by
  cases l with
  | nil => exact absurd h (by simp [KRecord.parse])
  | cons b0 rest0 =>
    simp only [KRecord.parse, List.head?] at h
    by_cases hb : b0 = 75
    swap
    · rw [if_pos hb] at h
      exact absurd h (by simp)
    subst hb
    rw [if_neg (by simp)] at h
    split at h
    · exact absurd h (by simp)
    rename_i hlen
    simp only [RResult.bind_eq_ok] at h
    obtain ⟨ts, hts, t, hparse, hfin⟩ := h
    injection hfin with hfin
    subst hfin
    rw [strSlice] at hts
    split at hts
    swap
    · exact absurd hts (by simp)
    rename_i hcond
    injection hts with hts
    rw [← hts] at hparse
    obtain ⟨tb1, tb2, tb3⟩ := timeParse_ok hparse
    obtain ⟨htp, htl, hta⟩ := timeFormat_spec tb1 tb2 tb3
    set L := (75 : Nat) :: rest0 with hL
    set T := Time.format t with hT
    set E := L.drop 7 with hE
    have hElen : 1 ≤ E.length := by
      rw [hE]
      simp only [List.length_drop]
      simp only [hL, List.length_cons] at hlen ⊢
      omega
    have hFdef : KRecord.format ⟨t, E⟩ = 75 :: (T ++ E) := rfl
    have hFlen : (75 :: (T ++ E)).length = 7 + E.length := by
      simp [htl]
      omega
    -- boundary at byte 7 of the original line carries over to the tail head
    have hbd7 : isContByte (E.getD 0 0) = false := by
      have h7 := hcond.2.2.2
      have := isCharBoundary_elim h7 (by omega) (by
        simp only [hL, List.length_cons] at hlen ⊢
        omega)
      rw [hE, getD_drop]
      exact this
    rw [hFdef, KRecord.parse]
    simp only [List.head?]
    rw [if_neg (by simp), if_neg (by rw [hFlen]; omega)]
    have hslice : slice (75 :: (T ++ E)) 1 7 = T := by
      rw [slice_cons_skip (by omega)]
      show slice (T ++ E) 0 6 = T
      exact slice_prefix_len E htl
    have hstr : strSlice (75 :: (T ++ E)) 1 7 = .ok T := by
      rw [strSlice, if_pos, hslice]
      refine ⟨by omega, by rw [hFlen]; omega, ?_, ?_⟩
      · apply isCharBoundary_intro (by rw [hFlen]; omega)
        apply isContByte_of_ascii
        show (75 :: (T ++ E)).getD 1 0 < 128
        have hTne : T ≠ [] := by
          intro hc
          rw [hc] at htl
          simp at htl
        show (T ++ E).getD 0 0 < 128
        rw [getD_append_left (by rw [htl]; omega)]
        exact ascii_getD hta (by rw [htl]; omega)
      · apply isCharBoundary_intro (by rw [hFlen]; omega)
        show isContByte ((75 :: (T ++ E)).getD 7 0) = false
        have : (75 :: (T ++ E)).getD 7 0 = E.getD 0 0 := by
          show (T ++ E).getD 6 0 = E.getD 0 0
          rw [getD_append_right (by rw [htl]), htl]
        rw [this]
        exact hbd7
    rw [hstr, RResult.bind_ok, htp, RResult.bind_ok]
    have hdrop : (75 :: (T ++ E)).drop 7 = E := by
      show (T ++ E).drop 6 = E
      have := @drop_skip T E 6 6 htl (Nat.le_refl 6)
      rw [this]
      simp

    rw [hdrop]

theorem fRecord_roundtrip {l : List Nat} {r : FRecord}
    (h : FRecord.parse l = .ok r) :
    FRecord.parse (FRecord.format r) = .ok r := by
  rw [FRecord.parse] at h
  split at h
  · exact absurd h (by simp)
  split at h
  · exact absurd h (by simp)
  rename_i hlen hascii
  rw [Bool.not_eq_false] at hascii
  simp only [RResult.bind_eq_ok] at h
  obtain ⟨t, hparse, hfin⟩ := h
  split at hfin
  · exact absurd hfin (by simp)
  rename_i heven
  injection hfin with hfin
  subst hfin
  obtain ⟨tb1, tb2, tb3⟩ := timeParse_ok hparse
  obtain ⟨htp, htl, hta⟩ := timeFormat_spec tb1 tb2 tb3
  set T := Time.format t with hT
  set S := l.drop 7 with hS
  have hFdef : FRecord.format ⟨t, S⟩ = 70 :: (T ++ S) := rfl
  have hFlen : (70 :: (T ++ S)).length = 7 + S.length := by
    simp [htl]
    omega
  have hSascii : allAscii S = true := allAscii_drop 7 hascii
  rw [hFdef, FRecord.parse, if_neg (by rw [hFlen]; omega),
    if_neg (by
      rw [allAscii_cons, allAscii_append, hta, hSascii]
      simp [isAsciiByte])]
  have hslice : slice (70 :: (T ++ S)) 1 7 = T := by
    rw [slice_cons_skip (by omega)]
    show slice (T ++ S) 0 6 = T
    exact slice_prefix_len S htl
  rw [hslice, htp, RResult.bind_ok]
  have hdrop : (70 :: (T ++ S)).drop 7 = S := by
    show (T ++ S).drop 6 = S
    rw [drop_skip htl (Nat.le_refl 6)]
    simp
  rw [hdrop, if_neg heven]

theorem eRecord_roundtrip {l : List Nat} {r : ERecord}
    (h : ERecord.parse l = .ok r) :
    ERecord.parse (ERecord.format r) = .ok r := by
  rw [ERecord.parse] at h
  split at h
  · exact absurd h (by simp)
  split at h
  · exact absurd h (by simp)
  split at h
  · exact absurd h (by simp)
  rename_i hlen hascii hhead
  rw [Bool.not_eq_false] at hascii
  simp only [RResult.bind_eq_ok] at h
  obtain ⟨t, hparse, hfin⟩ := h
  injection hfin with hfin
  subst hfin
  obtain ⟨tb1, tb2, tb3⟩ := timeParse_ok hparse
  obtain ⟨htp, htl, hta⟩ := timeFormat_spec tb1 tb2 tb3
  set T := Time.format t with hT
  set M := slice l 7 10 with hM
  have hMlen : M.length = 3 := by
    rw [hM]
    exact slice_length 7 (by omega)
  have hMascii : allAscii M = true := by
    rw [hM, ← slice_take_of_le (k := 10) (by omega)]
    exact allAscii_slice _ _ hascii
  set X := displayOption (if l.length > 10 then some (l.drop 10) else none) with hX
  have hXval : (if l.length > 10 then some (l.drop 10) else none) =
      (if l.length > 10 then some X else none) := by
    by_cases hc : l.length > 10
    · rw [if_pos hc, if_pos hc, hX, if_pos hc]
      rfl
    · rw [if_neg hc, if_neg hc]
  have hFdef : ERecord.format ⟨t, M, if l.length > 10 then some (l.drop 10) else none⟩ =
      69 :: (T ++ (M ++ X)) := by
    rw [ERecord.format]

  have hFlen : (69 :: (T ++ (M ++ X))).length = 10 + X.length := by
    simp [htl, hMlen]
    omega
  have hXempty : X = [] ↔ ¬(l.length > 10) := by
    constructor
    · intro hc
      intro hgt
      rw [hX, if_pos hgt] at hc
      simp only [displayOption] at hc
      have : (l.drop 10).length = 0 := by rw [hc]; rfl
      simp only [List.length_drop] at this
      omega
    · intro hc
      rw [hX, if_neg hc]
      rfl
  have htake : (69 :: (T ++ (M ++ X))).take 10 = 69 :: (T ++ M) := by
    show 69 :: (T ++ (M ++ X)).take 9 = 69 :: (T ++ M)
    congr 1
    rw [take_skip htl (by omega)]
    congr 1
    rw [take_skip hMlen (by omega)]
    simp
  rw [hFdef, ERecord.parse, if_neg (by rw [hFlen]; omega),
    if_neg (by
      rw [htake, allAscii_cons, allAscii_append, hta, hMascii]
      simp [isAsciiByte]),
    if_neg (by simp)]
  have hslice1 : slice (69 :: (T ++ (M ++ X))) 1 7 = T := by
    rw [slice_cons_skip (by omega)]
    show slice (T ++ (M ++ X)) 0 6 = T
    exact slice_prefix_len _ htl
  have hslice2 : slice (69 :: (T ++ (M ++ X))) 7 10 = M := by
    rw [slice_cons_skip (by omega)]
    show slice (T ++ (M ++ X)) 6 9 = M
    rw [slice_skip htl (by omega)]
    show slice (M ++ X) 0 3 = M
    exact slice_prefix_len _ hMlen
  rw [hslice1, htp, RResult.bind_ok, hslice2]
  by_cases hc : l.length > 10
  · have hXne : X ≠ [] := by
      intro hcc
      exact (hXempty.mp hcc) hc
    have hgt : (69 :: (T ++ (M ++ X))).length > 10 := by
      rw [hFlen]
      have : X.length ≠ 0 := by
        intro hcc
        exact hXne (List.eq_nil_of_length_eq_zero hcc)
      omega
    rw [if_pos hgt]
    have hdrop : (69 :: (T ++ (M ++ X))).drop 10 = X := by
      show (T ++ (M ++ X)).drop 9 = X
      rw [drop_skip htl (by omega)]
      show (M ++ X).drop 3 = X
      rw [drop_skip hMlen (by omega)]
      simp
    rw [hdrop, hXval, if_pos hc]
  · have hX0 : X = [] := hXempty.mpr hc
    have hgt : ¬((69 :: (T ++ (M ++ X))).length > 10) := by
      rw [hFlen, hX0]
      simp
    rw [if_neg hgt, hXval, if_neg hc]

theorem getD_take {l : List Nat} {n k : Nat} (h : n < k) :
    (l.take k).getD n 0 = l.getD n 0 := by
  induction l generalizing n k with
  | nil => simp
  | cons x s ih =>
    cases k with
    | zero => omega
    | succ k =>
      cases n with
      | zero => rfl
      | succ n =>
        show (s.take k).getD n 0 = s.getD n 0
        exact ih (by omega)

theorem DataSource.to_from (b : Nat) : (DataSource.from_byte b).to_byte = b := by
  unfold DataSource.from_byte
  split_ifs with h1 h2 h3 <;> simp [DataSource.to_byte, *]

theorem findByteIdx_none_intro {b : Nat} {l : List Nat} (h : ∀ x ∈ l, x ≠ b) :
    findByteIdx b l = none := by
  induction l with
  | nil => rfl
  | cons x xs ih =>
    rw [findByteIdx, if_neg (h x (by simp)), ih]
    · rfl
    · intro y hy
      exact h y (by simp [hy])

theorem findByteIdx_eq_none {b : Nat} {l : List Nat} (h : findByteIdx b l = none) :
    ∀ x ∈ l, x ≠ b := by
  induction l with
  | nil => intro x hx; simp at hx
  | cons y ys ih =>
    rw [findByteIdx] at h
    by_cases hy : y = b
    · rw [if_pos hy] at h
      exact absurd h (by simp)
    · rw [if_neg hy] at h
      have hys : findByteIdx b ys = none := by
        cases hf : findByteIdx b ys with
        | none => rfl
        | some j => rw [hf] at h; exact absurd h (by simp)
      intro x hx
      rcases List.mem_cons.mp hx with hx | hx
      · subst hx
        exact hy
      · exact ih hys x hx

theorem findByteIdx_append_first {b : Nat} {n d : List Nat}
    (h : ∀ x ∈ n, x ≠ b) : findByteIdx b (n ++ b :: d) = some n.length := by
  induction n with
  | nil => simp [findByteIdx]
  | cons x xs ih =>
    rw [List.cons_append, findByteIdx, if_neg (h x (by simp))]
    rw [ih (fun y hy => h y (by simp [hy]))]
    rfl

theorem findByteIdx_some_decomp {b : Nat} {l : List Nat} {i : Nat}
    (h : findByteIdx b l = some i) :
    l.take i ++ b :: l.drop (i + 1) = l ∧ ∀ x ∈ l.take i, x ≠ b := by
  induction l generalizing i with
  | nil => simp [findByteIdx] at h
  | cons x xs ih =>
    rw [findByteIdx] at h
    by_cases hx : x = b
    · rw [if_pos hx] at h
      injection h with h
      subst h
      subst hx
      simp
    · rw [if_neg hx] at h
      cases hf : findByteIdx b xs with
      | none => rw [hf] at h; exact absurd h (by simp)
      | some j =>
        rw [hf] at h
        simp at h
        subst h
        obtain ⟨hd, hm⟩ := ih hf
        constructor
        · show x :: (xs.take j ++ b :: xs.drop (j + 1)) = x :: xs
          rw [hd]
        · intro y hy
          rcases List.mem_cons.mp hy with hy | hy
          · subst hy
            exact hx
          · exact hm y hy

set_option maxHeartbeats 1600000 in
theorem parse_triple_roundtrip (s : List Nat) (hlen : s.length = 3)
    (hascii : allAscii s = true) :
    ∃ s2, (Manufacturer.parse_triple_char s).to_triple_char = some s2 ∧
      s2.length = 3 ∧ allAscii s2 = true ∧
      Manufacturer.parse_triple_char s2 = Manufacturer.parse_triple_char s := by
  by_cases h1 : s = [65, 67, 84]
  · subst h1
    exact ⟨_, rfl, by decide, by decide, rfl⟩
  by_cases h2 : s = [67, 65, 77]
  · subst h2
    exact ⟨_, rfl, by decide, by decide, rfl⟩
  by_cases h3 : s = [67, 78, 73]
  · subst h3
    exact ⟨_, rfl, by decide, by decide, rfl⟩
  by_cases h4 : s = [68, 83, 88]
  · subst h4
    exact ⟨_, rfl, by decide, by decide, rfl⟩
  by_cases h5 : s = [69, 87, 65]
  · subst h5
    exact ⟨_, rfl, by decide, by decide, rfl⟩
  by_cases h6 : s = [70, 73, 76]
  · subst h6
    exact ⟨_, rfl, by decide, by decide, rfl⟩
  by_cases h7 : s = [70, 76, 65]
  · subst h7
    exact ⟨_, rfl, by decide, by decide, rfl⟩
  by_cases h8 : s = [70, 76, 89]
  · subst h8
    exact ⟨_, rfl, by decide, by decide, rfl⟩
  by_cases h9 : s = [71, 67, 83]
  · subst h9
    exact ⟨_, rfl, by decide, by decide, rfl⟩
  by_cases h10 : s = [73, 77, 73]
  · subst h10
    exact ⟨_, rfl, by decide, by decide, rfl⟩
  by_cases h11 : s = [76, 71, 83]
  · subst h11
    exact ⟨_, rfl, by decide, by decide, rfl⟩
  by_cases h12 : s = [76, 88, 78]
  · subst h12
    exact ⟨_, rfl, by decide, by decide, rfl⟩
  by_cases h13 : s = [76, 88, 86]
  · subst h13
    exact ⟨_, rfl, by decide, by decide, rfl⟩
  by_cases h14 : s = [78, 65, 86]
  · subst h14
    exact ⟨_, rfl, by decide, by decide, rfl⟩
  by_cases h15 : s = [78, 84, 69]
  · subst h15
    exact ⟨_, rfl, by decide, by decide, rfl⟩
  by_cases h16 : s = [78, 75, 76]
  · subst h16
    exact ⟨_, rfl, by decide, by decide, rfl⟩
  by_cases h17 : s = [80, 69, 83]
  · subst h17
    exact ⟨_, rfl, by decide, by decide, rfl⟩
  by_cases h18 : s = [80, 70, 69]
  · subst h18
    exact ⟨_, rfl, by decide, by decide, rfl⟩
  by_cases h19 : s = [80, 82, 84]
  · subst h19
    exact ⟨_, rfl, by decide, by decide, rfl⟩
  by_cases h20 : s = [83, 67, 72]
  · subst h20
    exact ⟨_, rfl, by decide, by decide, rfl⟩
  by_cases h21 : s = [83, 68, 73]
  · subst h21
    exact ⟨_, rfl, by decide, by decide, rfl⟩
  by_cases h22 : s = [84, 82, 73]
  · subst h22
    exact ⟨_, rfl, by decide, by decide, rfl⟩
  by_cases h23 : s = [90, 65, 78]
  · subst h23
    exact ⟨_, rfl, by decide, by decide, rfl⟩
  have hps : Manufacturer.parse_triple_char s = .UnknownTriple s := by
    unfold Manufacturer.parse_triple_char
    rw [if_neg h1, if_neg h2, if_neg h3, if_neg h4, if_neg h5, if_neg h6, if_neg h7, if_neg h8, if_neg h9, if_neg h10, if_neg h11, if_neg h12, if_neg h13, if_neg h14, if_neg h15, if_neg h16, if_neg h17, if_neg h18, if_neg h19, if_neg h20, if_neg h21, if_neg h22, if_neg h23]
  refine ⟨s, ?_, hlen, hascii, rfl⟩
  rw [hps]
  rfl

theorem aRecord_roundtrip {l : List Nat} {r : ARecord}
    (h : ARecord.parse l = .ok r) :
    ARecord.parse (ARecord.format r) = .ok r := by
  rw [ARecord.parse] at h
  simp only [RResult.bind_eq_ok] at h
  obtain ⟨first, hfirst, h⟩ := h
  split at h
  · exact absurd h (by simp)
  split at h
  · exact absurd h (by simp)
  split at h
  · exact absurd h (by simp)
  rename_i hfeq hlen hascii
  rw [Bool.not_eq_false] at hascii
  injection h with h
  subst h
  -- derived facts about the three regions
  have hTRlen : (slice l 1 4).length = 3 := slice_length 1 (by omega)
  have hTRascii : allAscii (slice l 1 4) = true := by
    rw [← slice_take_of_le (k := 7) (by omega)]
    exact allAscii_slice _ _ hascii
  have hUlen : (slice l 4 7).length = 3 := slice_length 4 (by omega)
  have hUascii : allAscii (slice l 4 7) = true := by
    rw [← slice_take_of_le (k := 7) (by omega)]
    exact allAscii_slice _ _ hascii
  obtain ⟨s2, hto, hs2len, hs2ascii, hs2parse⟩ :=
    parse_triple_roundtrip (slice l 1 4) hTRlen hTRascii
  set U := slice l 4 7 with hU
  set X := displayOption (if l.length > 7 then some (l.drop 7) else none) with hX
  have hXempty : X = [] ↔ ¬(l.length > 7) := by
    constructor
    · intro hc hgt
      rw [hX, if_pos hgt] at hc
      simp only [displayOption] at hc
      have : (l.drop 7).length = 0 := by rw [hc]; rfl
      simp only [List.length_drop] at this
      omega
    · intro hc
      rw [hX, if_neg hc]
      rfl
  have hFdef : ARecord.format ⟨Manufacturer.parse_triple_char (slice l 1 4), U,
      if l.length > 7 then some (l.drop 7) else none⟩ = 65 :: (s2 ++ (U ++ X)) := by
    rw [ARecord.format]
    show 65 :: (displayOption (Manufacturer.parse_triple_char (slice l 1 4)).to_triple_char
      ++ (U ++ X)) = _
    rw [hto]
    rfl
  have hFlen : (65 :: (s2 ++ (U ++ X))).length = 7 + X.length := by
    simp [hs2len, hUlen]
    omega
  have htake7 : (65 :: (s2 ++ (U ++ X))).take 7 = 65 :: (s2 ++ U) := by
    show 65 :: (s2 ++ (U ++ X)).take 6 = 65 :: (s2 ++ U)
    congr 1
    rw [take_skip hs2len (by omega)]
    congr 1
    rw [take_skip hUlen (by omega)]
    simp
  rw [hFdef, ARecord.parse]
  have hstr : strSlice (65 :: (s2 ++ (U ++ X))) 0 1 = .ok [65] := by
    rw [strSlice, if_pos]
    · rfl
    refine ⟨by omega, by rw [hFlen]; omega, isCharBoundary_zero _, ?_⟩
    apply isCharBoundary_intro (by rw [hFlen]; omega)
    apply isContByte_of_ascii
    show (s2 ++ (U ++ X)).getD 0 0 < 128
    rw [getD_append_left (by rw [hs2len]; omega)]
    exact ascii_getD hs2ascii (by rw [hs2len]; omega)
  rw [hstr, RResult.bind_ok, if_neg (by simp), if_neg (by rw [hFlen]; omega),
    if_neg (by
      rw [htake7, allAscii_cons, allAscii_append, hs2ascii, hUascii]
      simp [isAsciiByte])]
  have hslice1 : slice (65 :: (s2 ++ (U ++ X))) 1 4 = s2 := by
    rw [slice_cons_skip (by omega)]
    show slice (s2 ++ (U ++ X)) 0 3 = s2
    exact slice_prefix_len _ hs2len
  have hslice2 : slice (65 :: (s2 ++ (U ++ X))) 4 7 = U := by
    rw [slice_cons_skip (by omega)]
    show slice (s2 ++ (U ++ X)) 3 6 = U
    rw [slice_skip hs2len (by omega)]
    show slice (U ++ X) 0 3 = U
    exact slice_prefix_len _ hUlen
  rw [hslice1, hslice2, hs2parse]
  by_cases hc : l.length > 7
  · have hXne : X ≠ [] := fun hcc => (hXempty.mp hcc) hc
    have hgt : (65 :: (s2 ++ (U ++ X))).length > 7 := by
      rw [hFlen]
      have : X.length ≠ 0 := fun hcc => hXne (List.eq_nil_of_length_eq_zero hcc)
      omega
    rw [if_pos hgt]
    have hdrop : (65 :: (s2 ++ (U ++ X))).drop 7 = X := by
      show (s2 ++ (U ++ X)).drop 6 = X
      rw [drop_skip hs2len (by omega)]
      show (U ++ X).drop 3 = X
      rw [drop_skip hUlen (by omega)]
      simp
    rw [hdrop]
    have : (if l.length > 7 then some (l.drop 7) else none) = some X := by
      rw [if_pos hc, hX, if_pos hc]
      rfl
    rw [this]
  · have hX0 : X = [] := hXempty.mpr hc
    have hgt : ¬((65 :: (s2 ++ (U ++ X))).length > 7) := by
      rw [hFlen, hX0]
      simp
    rw [if_neg hgt]
    have : (if l.length > 7 then some (l.drop 7) else none) = none := if_neg hc
    rw [this]

theorem hRecord_roundtrip {l : List Nat} {r : HRecord}
    (h : HRecord.parse l = .ok r) :
    HRecord.parse (HRecord.format r) = .ok r := by
  cases l with
  | nil => exact absurd h (by simp [HRecord.parse])
  | cons b0 rest0 =>
    simp only [HRecord.parse, List.head?] at h
    by_cases hb : b0 = 72
    swap
    · rw [if_pos hb] at h
      exact absurd h (by simp)
    subst hb
    rw [if_neg (by simp)] at h
    split at h
    · exact absurd h (by simp)
    split at h
    · exact absurd h (by simp)
    rename_i hlen hascii
    rw [Bool.not_eq_false] at hascii
    set L := (72 : Nat) :: rest0 with hL
    set rest := L.drop 5 with hrest
    have hrestlen : 1 ≤ rest.length := by
      rw [hrest]
      simp only [List.length_drop]
      omega
    have hdsb : L.getD 1 0 < 128 := by
      have := ascii_getD hascii (n := 1) (by
        simp only [List.length_take]
        omega)
      rwa [getD_take (by omega)] at this
    have hMlen : (slice L 2 5).length = 3 := slice_length 2 (by omega)
    have hMascii : allAscii (slice L 2 5) = true := by
      rw [← slice_take_of_le (k := 5) (by omega)]
      exact allAscii_slice _ _ hascii
    set M := slice L 2 5 with hM
    set tb := L.getD 1 0 with htb
    cases hfind : findByteIdx 58 rest with
    | some idx =>
      rw [hfind] at h
      injection h with h
      subst h
      obtain ⟨hdecomp, hnocolon⟩ := findByteIdx_some_decomp hfind
      set n := rest.take idx with hn
      set d := rest.drop (idx + 1) with hd
      -- format = 72 :: tb' :: (M ++ (n ++ 58 :: d)) where tb' round-trips to tb
      have hFdef : HRecord.format ⟨DataSource.from_byte tb, M, some n, d⟩ =
          72 :: ((DataSource.from_byte tb).to_byte :: (M ++ (n ++ (58 :: d)))) := rfl
      rw [hFdef, DataSource.to_from]
      rw [HRecord.parse]
      simp only [List.head?]
      rw [if_neg (by simp)]
      have hFlen : (72 :: (tb :: (M ++ (n ++ (58 :: d))))).length =
          5 + n.length + 1 + d.length := by
        simp [hMlen]
        omega
      rw [if_neg (by
        show ¬(72 :: (tb :: (M ++ (n ++ (58 :: d))))).length < 6
        rw [hFlen]
        omega)]
      have htake5 : (72 :: (tb :: (M ++ (n ++ (58 :: d))))).take 5 =
          72 :: tb :: M := by
        show 72 :: tb :: (M ++ (n ++ (58 :: d))).take 3 = _
        rw [take_skip hMlen (by omega)]
        simp
      rw [if_neg (by
        rw [htake5, allAscii_cons, allAscii_cons, hMascii]
        simp [isAsciiByte, hdsb])]
      have hdrop5 : (72 :: (tb :: (M ++ (n ++ (58 :: d))))).drop 5 =
          n ++ (58 :: d) := by
        show (M ++ (n ++ (58 :: d))).drop 3 = _
        rw [drop_skip hMlen (by omega)]
        simp
      rw [hdrop5]
      rw [findByteIdx_append_first hnocolon]
      have hgd1 : (72 :: (tb :: (M ++ (n ++ (58 :: d))))).getD 1 0 = tb := rfl
      have hsl25 : slice (72 :: (tb :: (M ++ (n ++ (58 :: d))))) 2 5 = M := by
        rw [slice_cons_skip (by omega), slice_cons_skip (by omega)]
        show slice (M ++ (n ++ (58 :: d))) 0 3 = M
        exact slice_prefix_len _ hMlen
      rw [hgd1, hsl25]
      have htaken : (n ++ (58 :: d)).take n.length = n := List.take_left n _
      have hdropn : (n ++ (58 :: d)).drop (n.length + 1) = d := by
        rw [@drop_skip n (58 :: d) n.length (n.length + 1) rfl (by omega)]
        simp
      show RResult.ok (⟨DataSource.from_byte tb, M,
        some ((n ++ (58 :: d)).take n.length),
        (n ++ (58 :: d)).drop (n.length + 1)⟩ : HRecord) = _
      rw [htaken, hdropn]
    | none =>
      rw [hfind] at h
      injection h with h
      subst h
      have hno : ∀ x ∈ rest, x ≠ 58 := findByteIdx_eq_none hfind
      have hFdef : HRecord.format ⟨DataSource.from_byte tb, M, none, rest⟩ =
          72 :: ((DataSource.from_byte tb).to_byte :: (M ++ rest)) := rfl
      rw [hFdef, DataSource.to_from]
      rw [HRecord.parse]
      simp only [List.head?]
      rw [if_neg (by simp)]
      have hFlen : (72 :: (tb :: (M ++ rest))).length = 5 + rest.length := by
        simp [hMlen]
        omega
      rw [if_neg (by
        show ¬(72 :: (tb :: (M ++ rest))).length < 6
        rw [hFlen]
        omega)]
      have htake5 : (72 :: (tb :: (M ++ rest))).take 5 = 72 :: tb :: M := by
        show 72 :: tb :: (M ++ rest).take 3 = _
        rw [take_skip hMlen (by omega)]
        simp
      rw [if_neg (by
        rw [htake5, allAscii_cons, allAscii_cons, hMascii]
        simp [isAsciiByte, hdsb])]
      have hdrop5 : (72 :: (tb :: (M ++ rest))).drop 5 = rest := by
        show (M ++ rest).drop 3 = rest
        rw [drop_skip hMlen (by omega)]
        simp
      rw [hdrop5, findByteIdx_none_intro hno]
      have hgd1 : (72 :: (tb :: (M ++ rest))).getD 1 0 = tb := rfl
      have hsl25 : slice (72 :: (tb :: (M ++ rest))) 2 5 = M := by
        rw [slice_cons_skip (by omega), slice_cons_skip (by omega)]
        show slice (M ++ rest) 0 3 = M
        exact slice_prefix_len _ hMlen
      rw [hgd1, hsl25]

theorem FixValid.parse_byte (fv : FixValid) : fixValidParse [fv.byte] = .ok fv := by
  cases fv <;> rfl

theorem fixValidByte_ascii (fv : FixValid) : isAsciiByte fv.byte = true := by
  cases fv <;> decide

theorem bRecord_roundtrip {l : List Nat} {r : BRecord}
    (h : BRecord.parse l = .ok r) :
    BRecord.parse (BRecord.format r) = .ok r := by
  rw [BRecord.parse] at h
  split at h
  · exact absurd h (by simp)
  rename_i hlen
  split at h
  · exact absurd h (by simp)
  rename_i hasciiF
  have hascii : allAscii l = true := by
    revert hasciiF
    cases allAscii l <;> simp
  simp only [RResult.bind_eq_ok] at h
  obtain ⟨t, ht, p, hp, fv, hfv, pa, hpa, ga, hga, hfin⟩ := h
  injection hfin with hfin
  subst hfin
  obtain ⟨tb1, tb2, tb3⟩ := timeParse_ok ht
  obtain ⟨htp, htl, hta⟩ := timeFormat_spec tb1 tb2 tb3
  obtain ⟨hp1, hp2⟩ := posParse_ok hp
  obtain ⟨hpp, hpl, hpas⟩ := posFormat_spec hp1 hp2
  rw [pI_eq_ok] at hpa hga
  obtain ⟨hpa1, hpa2⟩ := parseI_bounds hpa (by norm_num) (by norm_num)
  obtain ⟨hga1, hga2⟩ := parseI_bounds hga (by norm_num) (by norm_num)
  have hsz1 := parseI_size hpa
  have hsz2 := parseI_size hga
  rw [slice_length 25 (by omega)] at hsz1
  rw [slice_length 30 (by omega)] at hsz2
  set T := Time.format t with hT
  set P := posFormat p with hP
  set A1 := fmtInt 5 pa with hA1
  set A2 := fmtInt 5 ga with hA2
  set E := l.drop 35 with hE
  have hA1l : A1.length = 5 := by
    rw [hA1]
    exact fmtInt_length (by omega) hsz1.1 hsz1.2
  have hA2l : A2.length = 5 := by
    rw [hA2]
    exact fmtInt_length (by omega) hsz2.1 hsz2.2
  have hA1as : allAscii A1 = true := by
    rw [hA1]
    exact fmtInt_ascii 5 pa
  have hA2as : allAscii A2 = true := by
    rw [hA2]
    exact fmtInt_ascii 5 ga
  have hEas : allAscii E = true := by
    rw [hE]
    exact allAscii_drop 35 hascii
  set F := 66 :: (T ++ (P ++ (fv.byte :: (A1 ++ (A2 ++ E))))) with hF
  have hFdef : BRecord.format ⟨t, p, fv, pa, ga, E⟩ = F := rfl
  have hFlen : F.length = 35 + E.length := by
    rw [hF]
    simp [htl, hpl, hA1l, hA2l]
    omega
  have hFascii : allAscii F = true := by
    rw [hF]
    simp only [allAscii_cons, allAscii_append, hta, hpas, hA1as, hA2as, hEas,
      fixValidByte_ascii]
    decide
  have s1 : slice F 1 7 = T := by
    rw [hF, slice_cons_skip (by omega)]
    exact slice_prefix_len _ htl
  have s2 : slice F 7 24 = P := by
    rw [hF, slice_cons_skip (by omega), slice_skip htl (by omega)]
    exact slice_prefix_len _ hpl
  have s3 : slice F 24 25 = [fv.byte] := by
    rw [hF, slice_cons_skip (by omega), slice_skip htl (by omega),
      slice_skip hpl (by omega)]
    rfl
  have s4 : slice F 25 30 = A1 := by
    rw [hF, slice_cons_skip (by omega), slice_skip htl (by omega),
      slice_skip hpl (by omega), slice_cons_skip (by omega)]
    exact slice_prefix_len _ hA1l
  have s5 : slice F 30 35 = A2 := by
    rw [hF, slice_cons_skip (by omega), slice_skip htl (by omega),
      slice_skip hpl (by omega), slice_cons_skip (by omega),
      slice_skip hA1l (by omega)]
    exact slice_prefix_len _ hA2l
  have s6 : F.drop 35 = E := by
    rw [hF]
    show (T ++ (P ++ (fv.byte :: (A1 ++ (A2 ++ E))))).drop 34 = E
    rw [drop_skip htl (by omega), drop_skip hpl (by omega)]
    show (A1 ++ (A2 ++ E)).drop 10 = E
    rw [drop_skip hA1l (by omega), drop_skip hA2l (by omega)]
    rfl
  rw [hFdef, BRecord.parse]
  rw [if_neg (by rw [hFlen]; omega)]
  rw [if_neg (by simp [hFascii])]
  rw [s1, htp, RResult.bind_ok, s2, hpp, RResult.bind_ok, s3,
    FixValid.parse_byte, RResult.bind_ok, s4, s5]
  rw [show pI (-32768) 32767 A1 = .ok pa from by rw [hA1]; exact pI_fmtInt hpa1 hpa2]
  rw [RResult.bind_ok]
  rw [show pI (-32768) 32767 A2 = .ok ga from by rw [hA2]; exact pI_fmtInt hga1 hga2]
  rw [RResult.bind_ok, s6]

theorem cDeclaration_roundtrip {l : List Nat} {r : CRecordDeclaration}
    (h : CRecordDeclaration.parse l = .ok r) :
    CRecordDeclaration.parse (CRecordDeclaration.format r) = .ok r := by
  rw [CRecordDeclaration.parse] at h
  split at h
  · exact absurd h (by simp)
  rename_i hlen
  split at h
  · exact absurd h (by simp)
  rename_i hasciiF
  split at h
  · exact absurd h (by simp)
  rename_i hhead
  have hascii : allAscii (l.take 25) = true := by
    revert hasciiF
    cases allAscii (l.take 25) <;> simp
  simp only [RResult.bind_eq_ok, pU_eq_ok, pI_eq_ok] at h
  obtain ⟨dt, hdt, tm, htm, fd, hfd, ti, hti, tc, htc, hfin⟩ := h
  injection hfin with hfin
  subst hfin
  obtain ⟨db1, db2, db3⟩ := dateParse_ok hdt
  obtain ⟨hdp, hdl, hda⟩ := dateFormat_spec db1 db2 db3
  obtain ⟨tb1, tb2, tb3⟩ := timeParse_ok htm
  obtain ⟨htp, htl, hta⟩ := timeFormat_spec tb1 tb2 tb3
  obtain ⟨fb1, fb2, fb3⟩ := dateParse_ok hfd
  obtain ⟨hfp, hfl, hfa⟩ := dateFormat_spec fb1 fb2 fb3
  have hti4 : ti < 10 ^ 4 := by
    have := parseU_lt hti
    rwa [slice_length 19 (by omega)] at this
  have hti65535 : ti ≤ 65535 := parseU_le_bound hti
  obtain ⟨tc1, tc2⟩ := parseI_bounds htc (by norm_num) (by norm_num)
  have hsz := parseI_size htc
  rw [slice_length 23 (by omega)] at hsz
  set D := Date.format dt with hD
  set T := Time.format tm with hT
  set FD := Date.format fd with hFD
  set TI := fmtNat 4 ti with hTI
  set TC := fmtInt 2 tc with hTC
  set X := displayOption (if l.length > 25 then some (l.drop 25) else none) with hX
  have hTIl : TI.length = 4 := by
    rw [hTI]
    exact fmtNat_length (by omega) hti4
  have hTIa : allAscii TI = true := by
    rw [hTI]
    exact fmtNat_ascii 4 ti
  have hTCl : TC.length = 2 := by
    rw [hTC]
    exact fmtInt_length (by omega) hsz.1 hsz.2
  have hTCa : allAscii TC = true := by
    rw [hTC]
    exact fmtInt_ascii 2 tc
  have hXempty : X = [] ↔ ¬(l.length > 25) := by
    constructor
    · intro hc hgt
      rw [hX, if_pos hgt] at hc
      simp only [displayOption] at hc
      have : (l.drop 25).length = 0 := by rw [hc]; rfl
      simp only [List.length_drop] at this
      omega
    · intro hc
      rw [hX, if_neg hc]
      rfl
  set F := 67 :: (D ++ (T ++ (FD ++ (TI ++ (TC ++ X))))) with hF
  have hFdef : CRecordDeclaration.format ⟨dt, tm, fd, ti, tc,
      if l.length > 25 then some (l.drop 25) else none⟩ = F := rfl
  have hFlen : F.length = 25 + X.length := by
    rw [hF]
    simp [hdl, htl, hfl, hTIl, hTCl]
    omega
  have htake25 : F.take 25 = 67 :: (D ++ (T ++ (FD ++ (TI ++ TC)))) := by
    rw [hF]
    show 67 :: (D ++ (T ++ (FD ++ (TI ++ (TC ++ X))))).take 24 = _
    congr 1
    rw [take_skip hdl (by omega)]
    congr 1
    rw [take_skip htl (by omega)]
    congr 1
    rw [take_skip hfl (by omega)]
    congr 1
    rw [take_skip hTIl (by omega)]
    congr 1
    rw [take_skip hTCl (by omega)]
    simp
  have hFascii25 : allAscii (F.take 25) = true := by
    rw [htake25]
    simp only [allAscii_cons, allAscii_append, hda, hta, hfa, hTIa, hTCa]
    decide
  have s1 : slice F 1 7 = D := by
    rw [hF, slice_cons_skip (by omega)]
    exact slice_prefix_len _ hdl
  have s2 : slice F 7 13 = T := by
    rw [hF, slice_cons_skip (by omega), slice_skip hdl (by omega)]
    exact slice_prefix_len _ htl
  have s3 : slice F 13 19 = FD := by
    rw [hF, slice_cons_skip (by omega), slice_skip hdl (by omega),
      slice_skip htl (by omega)]
    exact slice_prefix_len _ hfl
  have s4 : slice F 19 23 = TI := by
    rw [hF, slice_cons_skip (by omega), slice_skip hdl (by omega),
      slice_skip htl (by omega), slice_skip hfl (by omega)]
    exact slice_prefix_len _ hTIl
  have s5 : slice F 23 25 = TC := by
    rw [hF, slice_cons_skip (by omega), slice_skip hdl (by omega),
      slice_skip htl (by omega), slice_skip hfl (by omega),
      slice_skip hTIl (by omega)]
    exact slice_prefix_len _ hTCl
  rw [hFdef, CRecordDeclaration.parse]
  rw [if_neg (by rw [hFlen]; omega)]
  rw [if_neg (by simp [hFascii25])]
  rw [if_neg (by rw [hF]; simp)]
  rw [s1, hdp, RResult.bind_ok, s2, htp, RResult.bind_ok, s3, hfp,
    RResult.bind_ok, s4, s5]
  rw [show pU 65535 TI = .ok ti from by rw [hTI]; exact pU_fmtNat hti65535]
  rw [RResult.bind_ok]
  rw [show pI (-128) 127 TC = .ok tc from by rw [hTC]; exact pI_fmtInt tc1 tc2]
  rw [RResult.bind_ok]
  by_cases hc : l.length > 25
  · have hXne : X ≠ [] := fun hcc => (hXempty.mp hcc) hc
    have hgt : F.length > 25 := by
      rw [hFlen]
      have : X.length ≠ 0 := fun hcc => hXne (List.eq_nil_of_length_eq_zero hcc)
      omega
    rw [if_pos hgt]
    have hdrop : F.drop 25 = X := by
      rw [hF]
      show (D ++ (T ++ (FD ++ (TI ++ (TC ++ X))))).drop 24 = X
      rw [drop_skip hdl (by omega), drop_skip htl (by omega),
        drop_skip hfl (by omega), drop_skip hTIl (by omega),
        drop_skip hTCl (by omega)]
      rfl
    rw [hdrop]
    have : (if l.length > 25 then some (l.drop 25) else none) = some X := by
      rw [if_pos hc, hX, if_pos hc]
      rfl
    rw [this]
  · have hX0 : X = [] := hXempty.mpr hc
    have hgt : ¬(F.length > 25) := by
      rw [hFlen, hX0]
      simp
    rw [if_neg hgt]
    have : (if l.length > 25 then some (l.drop 25) else none) = none := if_neg hc
    rw [this]

theorem cTurnpoint_roundtrip {l : List Nat} {r : CRecordTurnpoint}
    (h : CRecordTurnpoint.parse l = .ok r) :
    CRecordTurnpoint.parse (CRecordTurnpoint.format r) = .ok r := by
  rw [CRecordTurnpoint.parse] at h
  split at h
  · exact absurd h (by simp)
  rename_i hlen
  split at h
  · exact absurd h (by simp)
  rename_i hasciiF
  split at h
  · exact absurd h (by simp)
  rename_i hhead
  have hascii : allAscii (l.take 18) = true := by
    revert hasciiF
    cases allAscii (l.take 18) <;> simp
  simp only [RResult.bind_eq_ok] at h
  obtain ⟨p, hp, hfin⟩ := h
  injection hfin with hfin
  subst hfin
  obtain ⟨hp1, hp2⟩ := posParse_ok hp
  obtain ⟨hpp, hpl, hpas⟩ := posFormat_spec hp1 hp2
  set P := posFormat p with hP
  set X := displayOption (if l.length > 18 then some (l.drop 18) else none) with hX
  have hXempty : X = [] ↔ ¬(l.length > 18) := by
    constructor
    · intro hc hgt
      rw [hX, if_pos hgt] at hc
      simp only [displayOption] at hc
      have : (l.drop 18).length = 0 := by rw [hc]; rfl
      simp only [List.length_drop] at this
      omega
    · intro hc
      rw [hX, if_neg hc]
      rfl
  set F := 67 :: (P ++ X) with hF
  have hFdef : CRecordTurnpoint.format ⟨p,
      if l.length > 18 then some (l.drop 18) else none⟩ = F := rfl
  have hFlen : F.length = 18 + X.length := by
    rw [hF]
    simp [hpl]
    omega
  have htake18 : F.take 18 = 67 :: P := by
    rw [hF]
    show 67 :: (P ++ X).take 17 = 67 :: P
    congr 1
    rw [take_skip hpl (by omega)]
    simp
  have hFascii18 : allAscii (F.take 18) = true := by
    rw [htake18]
    simp only [allAscii_cons, hpas]
    decide
  have s1 : slice F 1 18 = P := by
    rw [hF, slice_cons_skip (by omega)]
    exact slice_prefix_len _ hpl
  rw [hFdef, CRecordTurnpoint.parse]
  rw [if_neg (by rw [hFlen]; omega)]
  rw [if_neg (by simp [hFascii18])]
  rw [if_neg (by rw [hF]; simp)]
  rw [s1, hpp, RResult.bind_ok]
  by_cases hc : l.length > 18
  · have hXne : X ≠ [] := fun hcc => (hXempty.mp hcc) hc
    have hgt : F.length > 18 := by
      rw [hFlen]
      have : X.length ≠ 0 := fun hcc => hXne (List.eq_nil_of_length_eq_zero hcc)
      omega
    rw [if_pos hgt]
    have hdrop : F.drop 18 = X := by
      rw [hF]
      show (P ++ X).drop 17 = X
      rw [drop_skip hpl (by omega)]
      rfl
    rw [hdrop]
    have : (if l.length > 18 then some (l.drop 18) else none) = some X := by
      rw [if_pos hc, hX, if_pos hc]
      rfl
    rw [this]
  · have hX0 : X = [] := hXempty.mpr hc
    have hgt : ¬(F.length > 18) := by
      rw [hFlen, hX0]
      simp
    rw [if_neg hgt]
    have : (if l.length > 18 then some (l.drop 18) else none) = none := if_neg hc
    rw [this]

theorem extensionRange_roundtrip {s : List Nat} {rng : ExtensionRange}
    (h : ExtensionRange.parse s = .ok rng) :
    ExtensionRange.parse rng.format = .ok rng ∧ rng.format.length = 4 ∧
      ∃ b rest, rng.format = b :: rest ∧ isDigitByte b = true := by
  rw [ExtensionRange.parse] at h
  split at h
  · exact absurd h (by simp)
  rename_i hlen
  simp only [RResult.bind_eq_ok, pU_eq_ok] at h
  obtain ⟨sb, hsb, eb, heb, hfin⟩ := h
  split at hfin
  · exact absurd hfin (by simp)
  rename_i hns
  injection hfin with hfin
  subst hfin
  have hsb100 : sb < 100 := by
    have := parseU_lt hsb
    rwa [slice_length 0 (by omega)] at this
  have heb100 : eb < 100 := by
    have := parseU_lt heb
    rwa [slice_length 2 (by omega)] at this
  have lS : (fmtNat 2 sb).length = 2 := fmtNat_length (by omega) (by omega)
  have lE : (fmtNat 2 eb).length = 2 := fmtNat_length (by omega) (by omega)
  have hfl : (ExtensionRange.format ⟨sb, eb⟩).length = 4 := by
    simp [ExtensionRange.format, lS, lE]
  refine ⟨?_, hfl, ?_⟩
  · rw [ExtensionRange.parse, if_neg (by omega)]
    have s1 : slice (ExtensionRange.format ⟨sb, eb⟩) 0 2 = fmtNat 2 sb := by
      rw [ExtensionRange.format]
      exact slice_prefix_len _ lS
    have s2 : slice (ExtensionRange.format ⟨sb, eb⟩) 2 4 = fmtNat 2 eb := by
      rw [ExtensionRange.format]
      exact slice_last lS (by simpa using lE) (by omega)
    rw [s1, s2, pU_fmtNat (show sb ≤ 255 by omega), RResult.bind_ok,
      pU_fmtNat (show eb ≤ 255 by omega), RResult.bind_ok, if_neg hns]
  · obtain ⟨b, rest, heq, hd⟩ := fmtNat_head_digit 2 sb
    exact ⟨b, rest ++ fmtNat 2 eb, by rw [ExtensionRange.format, heq]; rfl, hd⟩

theorem extension_roundtrip {c : List Nat} {e : Extension}
    (h : Extension.parse c = .ok e) :
    Extension.parse e.format = .ok e ∧ e.format.length = 7 ∧
      ∃ b rest, e.format = b :: rest ∧ isDigitByte b = true := by
  rw [Extension.parse] at h
  split at h
  · exact absurd h (by simp)
  rename_i hlen
  simp only [RResult.bind_eq_ok] at h
  obtain ⟨rng, hrng, hfin⟩ := h
  injection hfin with hfin
  subst hfin
  obtain ⟨hrp, hrl, b, rbrest, hrheq, hrd⟩ := extensionRange_roundtrip hrng
  have hml : (slice c 4 7).length = 3 := slice_length 4 (by omega)
  have hel : (Extension.format ⟨rng, slice c 4 7⟩).length = 7 := by
    simp [Extension.format, hrl, hml]
  refine ⟨?_, hel, ?_⟩
  · rw [Extension.parse, if_neg (by omega)]
    have s1 : slice (Extension.format ⟨rng, slice c 4 7⟩) 0 4 = rng.format := by
      rw [Extension.format]
      exact slice_prefix_len _ hrl
    have s2 : slice (Extension.format ⟨rng, slice c 4 7⟩) 4 7 =
        slice c 4 7 := by
      rw [Extension.format]
      exact slice_last hrl (by simpa using hml) (by omega)
    rw [s1, hrp, RResult.bind_ok, s2]
  · exact ⟨b, rbrest ++ slice c 4 7,
      by rw [Extension.format, hrheq]; rfl, hrd⟩

theorem parseChunks_roundtrip {cs : List (List Nat)} {es : List Extension}
    (h : parseChunks cs = .ok es) :
    parseChunks (chunks7 ((es.map Extension.format).flatten)) = .ok es ∧
    ((es.map Extension.format).flatten).length = 7 * es.length ∧
    (es = [] ∨ ∃ b rest, (es.map Extension.format).flatten = b :: rest ∧
      isDigitByte b = true) := by
  induction cs generalizing es with
  | nil =>
    rw [parseChunks] at h
    injection h with h
    subst h
    exact ⟨rfl, rfl, Or.inl rfl⟩
  | cons c cs ih =>
    rw [parseChunks] at h
    simp only [RResult.bind_eq_ok] at h
    obtain ⟨e, he, es2, hes2, hfin⟩ := h
    injection hfin with hfin
    subst hfin
    obtain ⟨hep, hel, hb, hbrest, hbeq, hbd⟩ := extension_roundtrip he
    obtain ⟨ihp, ihl, _⟩ := ih hes2
    have hfl : ((e :: es2).map Extension.format).flatten =
        e.format ++ (es2.map Extension.format).flatten := by
      simp
    refine ⟨?_, ?_, ?_⟩
    · rw [hfl, chunks7_cons7 _ hel, parseChunks, hep, RResult.bind_ok, ihp,
        RResult.bind_ok]
    · rw [hfl]
      simp only [List.length_append, hel, ihl, List.length_cons]
      ring
    · exact Or.inr ⟨hb, hbrest ++ (es2.map Extension.format).flatten,
        by rw [hfl, hbeq]; rfl, hbd⟩

theorem parseChunks_length {cs : List (List Nat)} {es : List Extension}
    (h : parseChunks cs = .ok es) : es.length = cs.length := by
  induction cs generalizing es with
  | nil =>
    rw [parseChunks] at h
    injection h with h
    subst h
    rfl
  | cons c cs ih =>
    rw [parseChunks] at h
    simp only [RResult.bind_eq_ok] at h
    obtain ⟨e, he, es2, hes2, hfin⟩ := h
    injection hfin with hfin
    subst hfin
    simp only [List.length_cons, ih hes2]

theorem chunks7_length_of : ∀ (n : Nat) (x : List Nat), x.length = 7 * n →
    (chunks7 x).length = n := by
  intro n
  induction n with
  | zero =>
    intro x hx
    have : x = [] := List.eq_nil_of_length_eq_zero (by omega)
    subst this
    rfl
  | succ n ih =>
    intro x hx
    have hx7 : (x.take 7).length = 7 := by
      simp only [List.length_take]
      omega
    have hxr : (x.drop 7).length = 7 * n := by
      simp only [List.length_drop]
      omega
    have hsplit : x = x.take 7 ++ x.drop 7 := (List.take_append_drop 7 x).symm
    rw [hsplit, chunks7_cons7 _ hx7]
    simp only [List.length_cons, ih _ hxr]

theorem extensionDefRecord_roundtrip {letter : Nat} {l : List Nat}
    {r : ExtensionDefRecord} (hlet : ¬(letter ≠ 73 ∧ letter ≠ 74))
    (h : ExtensionDefRecord.parse l = .ok r) :
    ExtensionDefRecord.parse (ExtensionDefRecord.format letter r) = .ok r := by
  cases l with
  | nil => exact absurd h (by simp [ExtensionDefRecord.parse])
  | cons b0 rest0 =>
    simp only [ExtensionDefRecord.parse, List.head?] at h
    split at h
    · exact absurd h (by simp)
    rename_i hb0
    split at h
    · exact absurd h (by simp)
    rename_i hlen
    simp only [RResult.bind_eq_ok, pU_eq_ok] at h
    obtain ⟨cnt, hcnt, ne, hne, h⟩ := h
    rw [strSlice] at hcnt
    split at hcnt
    swap
    · exact absurd hcnt (by simp)
    rename_i hcond
    injection hcnt with hcnt
    split at h
    · exact absurd h (by simp)
    rename_i hlenEq
    simp only [RResult.bind_eq_ok] at h
    obtain ⟨exts, hexts, hfin⟩ := h
    injection hfin with hfin
    subst hfin
    have hcntlen : cnt.length = 2 := by
      rw [← hcnt]
      exact slice_length 1 (by simp at hlen ⊢; omega)
    have hne100 : ne < 100 := by
      have := parseU_lt hne
      rwa [hcntlen] at this
    have hdrop3len : ((b0 :: rest0).drop 3).length = 7 * ne := by
      simp only [List.length_drop]
      simp only [List.length_cons] at hlenEq ⊢
      push_neg at hlenEq
      omega
    have hextsn : exts.length = ne := by
      rw [parseChunks_length hexts, chunks7_length_of ne _ hdrop3len]
    obtain ⟨hchp, hchl, hchhead⟩ := parseChunks_roundtrip hexts
    set C := fmtNat 2 ne with hC
    set B := (exts.map Extension.format).flatten with hB
    have hCl : C.length = 2 := by
      rw [hC]
      exact fmtNat_length (by omega) (by omega)
    have hBl : B.length = 7 * ne := by
      rw [hchl, hextsn]
    have hFdef : ExtensionDefRecord.format letter ⟨ne, exts⟩ =
        letter :: (C ++ B) := rfl
    have hFlen : (letter :: (C ++ B)).length = 3 + B.length := by
      simp [hCl]
      omega
    obtain ⟨cb, crest, hCeq, hCd⟩ := fmtNat_head_digit 2 ne
    have hgd1 : (letter :: (C ++ B)).getD 1 0 = cb := by
      show (C ++ B).getD 0 0 = cb
      rw [getD_append_left (by omega), hC, hCeq]
      rfl
    rw [hFdef]
    simp only [ExtensionDefRecord.parse, List.head?]
    rw [if_neg hlet, if_neg (by rw [hFlen]; omega)]
    have hstr : strSlice (letter :: (C ++ B)) 1 3 = .ok C := by
      rw [strSlice, if_pos, slice_cons_skip (by omega)]
      · show RResult.ok (slice (C ++ B) 0 2) = RResult.ok C
        rw [slice_prefix_len _ hCl]
      refine ⟨by omega, by rw [hFlen]; omega, ?_, ?_⟩
      · apply isCharBoundary_intro (by rw [hFlen]; omega)
        rw [hgd1]
        apply isContByte_of_ascii
        simp only [isDigitByte, Bool.and_eq_true, decide_eq_true_eq] at hCd
        omega
      · rcases hchhead with hnil | ⟨bb, brest, hBeq, hBd⟩
        · have hB0 : B = [] := by
            rw [hB, hnil]
            rfl
          have h3 : (3 : Nat) = (letter :: (C ++ B)).length := by
            rw [hFlen, hB0]
            rfl
          rw [h3]
          exact isCharBoundary_length _
        · apply isCharBoundary_intro (by
            rw [hFlen, hBeq]
            simp only [List.length_cons]
            omega)
          have hgd3 : (letter :: (C ++ B)).getD 3 0 = bb := by
            show (C ++ B).getD 2 0 = bb
            rw [getD_append_right (by omega), hCl, hBeq]
            rfl
          rw [hgd3]
          apply isContByte_of_ascii
          simp only [isDigitByte, Bool.and_eq_true, decide_eq_true_eq] at hBd
          omega
    rw [hstr, RResult.bind_ok]
    rw [show pU 255 C = .ok ne from by rw [hC]; exact pU_fmtNat (by omega)]
    rw [RResult.bind_ok, if_neg (by rw [hFlen, hBl]; omega)]
    have hdrop : (letter :: (C ++ B)).drop 3 = B := by
      show (C ++ B).drop 2 = B
      exact drop_append_len_of hCl
    rw [hdrop, hchp, RResult.bind_ok]

theorem getD_mem {l : List Nat} {n : Nat} (h : n < l.length) : l.getD n 0 ∈ l := by
  induction l generalizing n with
  | nil => simp at h
  | cons x xs ih =>
    cases n with
    | zero => simp
    | succ n =>
      simp only [List.length_cons] at h
      exact List.mem_cons_of_mem x (ih (by omega))

/-- Unfolding `Record::parse_line` once the first byte is known. -/
theorem parse_line_head {L : List Nat} {b : Nat} (h : L.head? = some b) :
    Record.parse_line L =
      (if b = 65 then (ARecord.parse L).map .A
      else if b = 66 then (BRecord.parse L).map .B
      else if b = 67 then
        if L.length < 9 then .err .SyntaxError
        else if L.getD 8 0 = 78 ∨ L.getD 8 0 = 83 then
          (CRecordTurnpoint.parse L).map .CTurnpoint
        else (CRecordDeclaration.parse L).map .CDeclaration
      else if b = 68 then (DRecord.parse L).map .D
      else if b = 69 then (ERecord.parse L).map .E
      else if b = 70 then (FRecord.parse L).map .F
      else if b = 71 then (GRecord.parse L).map .G
      else if b = 72 then (HRecord.parse L).map .H
      else if b = 73 then (ExtensionDefRecord.parse L).map .I
      else if b = 74 then (ExtensionDefRecord.parse L).map .J
      else if b = 75 then (KRecord.parse L).map .K
      else if b = 76 then (LRecord.parse L).map .L
      else .ok (.Unrecognised L)) := by
  rw [Record.parse_line, h]

theorem cTurnpoint_disp {l : List Nat} {rt : CRecordTurnpoint}
    (h : CRecordTurnpoint.parse l = .ok rt) :
    ¬((CRecordTurnpoint.format rt).length < 9) ∧
      ((CRecordTurnpoint.format rt).getD 8 0 = 78 ∨
       (CRecordTurnpoint.format rt).getD 8 0 = 83) := by
  rw [CRecordTurnpoint.parse] at h
  split at h
  · exact absurd h (by simp)
  rename_i hlen
  split at h
  · exact absurd h (by simp)
  split at h
  · exact absurd h (by simp)
  simp only [RResult.bind_eq_ok] at h
  obtain ⟨p, hp, hfin⟩ := h
  injection hfin with hfin
  subst hfin
  obtain ⟨hp1, hp2⟩ := posParse_ok hp
  obtain ⟨hpp, hpl, hpas⟩ := posFormat_spec hp1 hp2
  have hAl : (fmtNat 2 p.lat.degrees).length = 2 :=
    fmtNat_length (by omega) (by have := hp1.1; omega)
  have hBl : (fmtNat 5 p.lat.minute_thousandths).length = 5 :=
    fmtNat_length (by omega) (by have := hp1.2.1; omega)
  have hll : (latFormat p.lat).length = 8 := by
    simp [latFormat, hAl, hBl]
  constructor
  · show ¬(67 :: (posFormat p ++ _)).length < 9
    simp only [List.length_cons, List.length_append, hpl]
    omega
  · have hg : (CRecordTurnpoint.format ⟨p,
        if l.length > 18 then some (l.drop 18) else none⟩).getD 8 0 =
        p.lat.sign.byte := by
      show (posFormat p ++ _).getD 7 0 = _
      rw [getD_append_left (by omega), posFormat,
        getD_append_left (by omega), latFormat,
        getD_append_right (by omega), hAl,
        getD_append_right (by rw [hBl]), hBl]
      rfl
    rw [hg]
    rcases hp1.2.2 with hs | hs <;> rw [hs] <;> simp [Compass.byte]

theorem cDeclaration_disp {l : List Nat} {rd : CRecordDeclaration}
    (h : CRecordDeclaration.parse l = .ok rd) :
    ¬((CRecordDeclaration.format rd).length < 9) ∧
      ¬((CRecordDeclaration.format rd).getD 8 0 = 78 ∨
        (CRecordDeclaration.format rd).getD 8 0 = 83) := by
  rw [CRecordDeclaration.parse] at h
  split at h
  · exact absurd h (by simp)
  rename_i hlen
  split at h
  · exact absurd h (by simp)
  split at h
  · exact absurd h (by simp)
  simp only [RResult.bind_eq_ok, pU_eq_ok, pI_eq_ok] at h
  obtain ⟨dt, hdt, tm, htm, fd, hfd, ti, hti, tc, htc, hfin⟩ := h
  injection hfin with hfin
  subst hfin
  obtain ⟨db1, db2, db3⟩ := dateParse_ok hdt
  obtain ⟨hdp, hdl, hda⟩ := dateFormat_spec db1 db2 db3
  obtain ⟨tb1, tb2, tb3⟩ := timeParse_ok htm
  obtain ⟨htp, htl, hta⟩ := timeFormat_spec tb1 tb2 tb3
  have hhl : (fmtNat 2 tm.hours).length = 2 :=
    fmtNat_length (by omega) (by omega)
  constructor
  · show ¬(67 :: (Date.format dt ++ _)).length < 9
    simp only [List.length_cons, List.length_append, hdl]
    omega
  · have hg : (CRecordDeclaration.format ⟨dt, tm, fd, ti, tc,
        if l.length > 25 then some (l.drop 25) else none⟩).getD 8 0 =
        (fmtNat 2 tm.hours).getD 1 0 := by
      show (Date.format dt ++ (Time.format tm ++ _)).getD 7 0 = _
      rw [getD_append_right (by omega), hdl, getD_append_left (by omega),
        Time.format, getD_append_left (by omega)]
    rw [hg]
    have hmem : (fmtNat 2 tm.hours).getD 1 0 ∈ fmtNat 2 tm.hours :=
      getD_mem (by omega)
    have hdig := fmtNat_digits 2 tm.hours _ hmem
    simp only [isDigitByte, Bool.and_eq_true, decide_eq_true_eq] at hdig
    omega

/-- Any record value produced by `Record.parse_line` re-parses from its own
rendering: the value-level round trip of the whole dispatcher. -/
theorem record_roundtrip {l : List Nat} {r : Record}
    (h : Record.parse_line l = .ok r) :
    Record.parse_line (Record.format r) = .ok r := by
  cases l with
  | nil => exact absurd h (by simp [Record.parse_line])
  | cons b0 rest0 =>
    simp only [Record.parse_line, List.head?] at h
    by_cases h65 : b0 = 65
    · rw [if_pos h65] at h
      subst h65
      rw [RResult.map_eq_ok] at h
      obtain ⟨rr, hrr, hr⟩ := h
      subst hr
      rw [show Record.format (.A rr) = ARecord.format rr from rfl]
      rw [parse_line_head (show (ARecord.format rr).head? = some 65 from rfl)]
      rw [if_pos (show (65 : Nat) = 65 from rfl), aRecord_roundtrip hrr]
      rfl
    rw [if_neg h65] at h
    by_cases h66 : b0 = 66
    · rw [if_pos h66] at h
      subst h66
      rw [RResult.map_eq_ok] at h
      obtain ⟨rr, hrr, hr⟩ := h
      subst hr
      rw [show Record.format (.B rr) = BRecord.format rr from rfl]
      rw [parse_line_head (show (BRecord.format rr).head? = some 66 from rfl)]
      rw [if_neg (show ¬(66 = 65) from by omega)]
      rw [if_pos (show (66 : Nat) = 66 from rfl), bRecord_roundtrip hrr]
      rfl
    rw [if_neg h66] at h
    by_cases h67 : b0 = 67
    · rw [if_pos h67] at h
      subst h67
      split at h
      · exact absurd h (by simp)
      rename_i hl9
      split at h
      · rename_i hNS0
        rw [RResult.map_eq_ok] at h
        obtain ⟨rr, hrr, hr⟩ := h
        subst hr
        obtain ⟨hlen9, hNS⟩ := cTurnpoint_disp hrr
        rw [show Record.format (.CTurnpoint rr) = CRecordTurnpoint.format rr from rfl]
        rw [parse_line_head (show (CRecordTurnpoint.format rr).head? = some 67 from rfl)]
        rw [if_neg (show ¬((67:Nat) = 65) from by omega), if_neg (show ¬((67:Nat) = 66) from by omega)]
        rw [if_pos (show (67 : Nat) = 67 from rfl), if_neg hlen9, if_pos hNS,
          cTurnpoint_roundtrip hrr]
        rfl
      · rename_i hNS0
        rw [RResult.map_eq_ok] at h
        obtain ⟨rr, hrr, hr⟩ := h
        subst hr
        obtain ⟨hlen9, hND⟩ := cDeclaration_disp hrr
        rw [show Record.format (.CDeclaration rr) = CRecordDeclaration.format rr from rfl]
        rw [parse_line_head (show (CRecordDeclaration.format rr).head? = some 67 from rfl)]
        rw [if_neg (show ¬((67:Nat) = 65) from by omega), if_neg (show ¬((67:Nat) = 66) from by omega)]
        rw [if_pos (show (67 : Nat) = 67 from rfl), if_neg hlen9, if_neg hND,
          cDeclaration_roundtrip hrr]
        rfl
    rw [if_neg h67] at h
    by_cases h68 : b0 = 68
    · rw [if_pos h68] at h
      subst h68
      rw [RResult.map_eq_ok] at h
      obtain ⟨rr, hrr, hr⟩ := h
      subst hr
      rw [show Record.format (.D rr) = DRecord.format rr from rfl]
      rw [parse_line_head (show (DRecord.format rr).head? = some 68 from rfl)]
      rw [if_neg (show ¬(68 = 65) from by omega),
        if_neg (show ¬(68 = 66) from by omega),
        if_neg (show ¬(68 = 67) from by omega)]
      rw [if_pos (show (68 : Nat) = 68 from rfl), dRecord_roundtrip hrr]
      rfl
    rw [if_neg h68] at h
    by_cases h69 : b0 = 69
    · rw [if_pos h69] at h
      subst h69
      rw [RResult.map_eq_ok] at h
      obtain ⟨rr, hrr, hr⟩ := h
      subst hr
      rw [show Record.format (.E rr) = ERecord.format rr from rfl]
      rw [parse_line_head (show (ERecord.format rr).head? = some 69 from rfl)]
      rw [if_neg (show ¬(69 = 65) from by omega),
        if_neg (show ¬(69 = 66) from by omega),
        if_neg (show ¬(69 = 67) from by omega),
        if_neg (show ¬(69 = 68) from by omega)]
      rw [if_pos (show (69 : Nat) = 69 from rfl), eRecord_roundtrip hrr]
      rfl
    rw [if_neg h69] at h
    by_cases h70 : b0 = 70
    · rw [if_pos h70] at h
      subst h70
      rw [RResult.map_eq_ok] at h
      obtain ⟨rr, hrr, hr⟩ := h
      subst hr
      rw [show Record.format (.F rr) = FRecord.format rr from rfl]
      rw [parse_line_head (show (FRecord.format rr).head? = some 70 from rfl)]
      rw [if_neg (show ¬(70 = 65) from by omega),
        if_neg (show ¬(70 = 66) from by omega),
        if_neg (show ¬(70 = 67) from by omega),
        if_neg (show ¬(70 = 68) from by omega),
        if_neg (show ¬(70 = 69) from by omega)]
      rw [if_pos (show (70 : Nat) = 70 from rfl), fRecord_roundtrip hrr]
      rfl
    rw [if_neg h70] at h
    by_cases h71 : b0 = 71
    · rw [if_pos h71] at h
      subst h71
      rw [RResult.map_eq_ok] at h
      obtain ⟨rr, hrr, hr⟩ := h
      subst hr
      rw [show Record.format (.G rr) = GRecord.format rr from rfl]
      rw [parse_line_head (show (GRecord.format rr).head? = some 71 from rfl)]
      rw [if_neg (show ¬(71 = 65) from by omega),
        if_neg (show ¬(71 = 66) from by omega),
        if_neg (show ¬(71 = 67) from by omega),
        if_neg (show ¬(71 = 68) from by omega),
        if_neg (show ¬(71 = 69) from by omega),
        if_neg (show ¬(71 = 70) from by omega)]
      rw [if_pos (show (71 : Nat) = 71 from rfl), gRecord_roundtrip hrr]
      rfl
    rw [if_neg h71] at h
    by_cases h72 : b0 = 72
    · rw [if_pos h72] at h
      subst h72
      rw [RResult.map_eq_ok] at h
      obtain ⟨rr, hrr, hr⟩ := h
      subst hr
      rw [show Record.format (.H rr) = HRecord.format rr from rfl]
      have hHhead : (HRecord.format rr).head? = some 72 := by
        rw [HRecord.format]
        cases rr.friendly_name <;> rfl
      rw [parse_line_head hHhead]
      rw [if_neg (show ¬(72 = 65) from by omega),
        if_neg (show ¬(72 = 66) from by omega),
        if_neg (show ¬(72 = 67) from by omega),
        if_neg (show ¬(72 = 68) from by omega),
        if_neg (show ¬(72 = 69) from by omega),
        if_neg (show ¬(72 = 70) from by omega),
        if_neg (show ¬(72 = 71) from by omega)]
      rw [if_pos (show (72 : Nat) = 72 from rfl), hRecord_roundtrip hrr]
      rfl
    rw [if_neg h72] at h
    by_cases h73 : b0 = 73
    · rw [if_pos h73] at h
      subst h73
      rw [RResult.map_eq_ok] at h
      obtain ⟨rr, hrr, hr⟩ := h
      subst hr
      rw [show Record.format (.I rr) = ExtensionDefRecord.format 73 rr from rfl]
      rw [parse_line_head (show (ExtensionDefRecord.format 73 rr).head? = some 73 from rfl)]
      rw [if_neg (show ¬(73 = 65) from by omega),
        if_neg (show ¬(73 = 66) from by omega),
        if_neg (show ¬(73 = 67) from by omega),
        if_neg (show ¬(73 = 68) from by omega),
        if_neg (show ¬(73 = 69) from by omega),
        if_neg (show ¬(73 = 70) from by omega),
        if_neg (show ¬(73 = 71) from by omega),
        if_neg (show ¬(73 = 72) from by omega)]
      rw [if_pos (show (73 : Nat) = 73 from rfl), extensionDefRecord_roundtrip (by simp) hrr]
      rfl
    rw [if_neg h73] at h
    by_cases h74 : b0 = 74
    · rw [if_pos h74] at h
      subst h74
      rw [RResult.map_eq_ok] at h
      obtain ⟨rr, hrr, hr⟩ := h
      subst hr
      rw [show Record.format (.J rr) = ExtensionDefRecord.format 74 rr from rfl]
      rw [parse_line_head (show (ExtensionDefRecord.format 74 rr).head? = some 74 from rfl)]
      rw [if_neg (show ¬(74 = 65) from by omega),
        if_neg (show ¬(74 = 66) from by omega),
        if_neg (show ¬(74 = 67) from by omega),
        if_neg (show ¬(74 = 68) from by omega),
        if_neg (show ¬(74 = 69) from by omega),
        if_neg (show ¬(74 = 70) from by omega),
        if_neg (show ¬(74 = 71) from by omega),
        if_neg (show ¬(74 = 72) from by omega),
        if_neg (show ¬(74 = 73) from by omega)]
      rw [if_pos (show (74 : Nat) = 74 from rfl), extensionDefRecord_roundtrip (by simp) hrr]
      rfl
    rw [if_neg h74] at h
    by_cases h75 : b0 = 75
    · rw [if_pos h75] at h
      subst h75
      rw [RResult.map_eq_ok] at h
      obtain ⟨rr, hrr, hr⟩ := h
      subst hr
      rw [show Record.format (.K rr) = KRecord.format rr from rfl]
      rw [parse_line_head (show (KRecord.format rr).head? = some 75 from rfl)]
      rw [if_neg (show ¬(75 = 65) from by omega),
        if_neg (show ¬(75 = 66) from by omega),
        if_neg (show ¬(75 = 67) from by omega),
        if_neg (show ¬(75 = 68) from by omega),
        if_neg (show ¬(75 = 69) from by omega),
        if_neg (show ¬(75 = 70) from by omega),
        if_neg (show ¬(75 = 71) from by omega),
        if_neg (show ¬(75 = 72) from by omega),
        if_neg (show ¬(75 = 73) from by omega),
        if_neg (show ¬(75 = 74) from by omega)]
      rw [if_pos (show (75 : Nat) = 75 from rfl), kRecord_roundtrip hrr]
      rfl
    rw [if_neg h75] at h
    by_cases h76 : b0 = 76
    · rw [if_pos h76] at h
      subst h76
      rw [RResult.map_eq_ok] at h
      obtain ⟨rr, hrr, hr⟩ := h
      subst hr
      rw [show Record.format (.L rr) = LRecord.format rr from rfl]
      rw [parse_line_head (show (LRecord.format rr).head? = some 76 from rfl)]
      rw [if_neg (show ¬(76 = 65) from by omega),
        if_neg (show ¬(76 = 66) from by omega),
        if_neg (show ¬(76 = 67) from by omega),
        if_neg (show ¬(76 = 68) from by omega),
        if_neg (show ¬(76 = 69) from by omega),
        if_neg (show ¬(76 = 70) from by omega),
        if_neg (show ¬(76 = 71) from by omega),
        if_neg (show ¬(76 = 72) from by omega),
        if_neg (show ¬(76 = 73) from by omega),
        if_neg (show ¬(76 = 74) from by omega),
        if_neg (show ¬(76 = 75) from by omega)]
      rw [if_pos (show (76 : Nat) = 76 from rfl), lRecord_roundtrip hrr]
      rfl
    rw [if_neg h76] at h
    injection h with h
    subst h
    show Record.parse_line (b0 :: rest0) = .ok (.Unrecognised (b0 :: rest0))
    simp only [Record.parse_line, List.head?]
    rw [if_neg h65, if_neg h66, if_neg h67, if_neg h68, if_neg h69, if_neg h70, if_neg h71, if_neg h72, if_neg h73, if_neg h74, if_neg h75, if_neg h76]

/-! ### The claims -/

/-- C1, counterexample to the byte-for-byte half: the K line "K+12345a" is
well formed (it decodes), but re-encoding the decoded value yields
"K012345a", not the original line. -/
theorem claim_C1_counterexample :
    Record.parse_line [75, 43, 49, 50, 51, 52, 53, 97] =
      .ok (.K ⟨⟨1, 23, 45⟩, [97]⟩) ∧
    Record.format (.K ⟨⟨1, 23, 45⟩, [97]⟩) ≠ [75, 43, 49, 50, 51, 52, 53, 97] := by
  decide

/-- C1 (amended): the round trip holds at the value level: every record value
produced by `Record.parse_line` re-parses, unchanged, from its own rendering.
(The byte-for-byte direction fails: a `+`-prefixed numeric sub-field decodes
but is re-encoded zero-padded.) -/
theorem claim_C1 : ∀ (l : List Nat) (r : Record),
    Record.parse_line l = .ok r → Record.parse_line (Record.format r) = .ok r :=
  fun _ _ h => record_roundtrip h

theorem claim_C1_witness :
    Record.parse_line (Record.format (.K ⟨⟨1, 23, 45⟩, [97]⟩)) =
      .ok (.K ⟨⟨1, 23, 45⟩, [97]⟩) :=
  claim_C1 [75, 43, 49, 50, 51, 52, 53, 97] (.K ⟨⟨1, 23, 45⟩, [97]⟩) (by decide)

/-- C2: `decode_line` is not panic-free.  The one-byte line "D" trips
`DRecord::parse`'s `assert_eq!(line.len(), 6)`; the five-byte "D1ABC" does
too; and "K12345©8" (whose two-byte character straddles byte offset 7)
makes `KRecord::parse`'s `&line[1..7]` slice at a non-boundary. -/
theorem claim_C2 :
    Record.parse_line [68] = .panic ∧
    Record.parse_line [68, 49, 65, 66, 67] = .panic ∧
    Record.parse_line [75, 49, 50, 51, 52, 53, 194, 169, 56] = .panic := by
  decide

/-- C3, counterexample: on a B record (base length 35) with tail "FooTheBar",
the range (8,10) does not yield "Foo" — its start lies inside the mandatory
region, so `get_extension` fails with `BadExtension`. -/
theorem claim_C3_counterexample :
    BRecord.get_extension exampleBFoo ⟨8, 10⟩ = .err .BadExtension ∧
    BRecord.get_extension exampleBFoo ⟨8, 10⟩ ≠ .ok [70, 111, 111] := by
  decide

/-- C3 (amended): `get_extension` translates the 1-indexed whole-line range by
`start = range.start - base_length - 1`, `end = range.end - base_length`
(whenever those subtractions do not underflow), failing `MissingExtension`
when the computed start runs past the tail; on a B record with tail
"FooTheBar" the ranges (36,38), (39,41), (42,44) yield "Foo", "The", "Bar",
and (45,47) is `MissingExtension`. -/
theorem claim_C3 :
    (∀ (base : Nat) (ext : List Nat) (rng : ExtensionRange),
      base + 1 ≤ rng.start_byte → base ≤ rng.end_byte →
      getExtension base ext rng =
        if rng.start_byte - base - 1 ≥ ext.length then .err .MissingExtension
        else strSlice ext (rng.start_byte - base - 1) (rng.end_byte - base)) ∧
    BRecord.get_extension exampleBFoo ⟨36, 38⟩ = .ok [70, 111, 111] ∧
    BRecord.get_extension exampleBFoo ⟨39, 41⟩ = .ok [84, 104, 101] ∧
    BRecord.get_extension exampleBFoo ⟨42, 44⟩ = .ok [66, 97, 114] ∧
    BRecord.get_extension exampleBFoo ⟨45, 47⟩ = .err .MissingExtension := by
  refine ⟨?_, by decide, by decide, by decide, by decide⟩
  intro base ext rng h1 h2
  rw [getExtension, if_neg (by omega), if_neg (by omega), if_neg (by omega)]

theorem claim_C3_witness :
    getExtension 7 fooTheBar ⟨8, 10⟩ =
      (if 8 - 7 - 1 ≥ fooTheBar.length then .err .MissingExtension
       else strSlice fooTheBar (8 - 7 - 1) (10 - 7)) :=
  claim_C3.1 7 fooTheBar ⟨8, 10⟩ (by decide) (by decide)

/-- C4: an inverted range is rejected with `BadExtension` by
`ExtensionRange::parse` ("4036"), but inside `get_extension` the same
inverted range panics (`&ext[4..1]`) instead, and a range starting at
exactly the base length (inside the mandatory region, `start < 36` for a B
record) panics on `usize` underflow instead of failing `BadExtension`. -/
theorem claim_C4 :
    ExtensionRange.parse [52, 48, 51, 54] = .err .BadExtension ∧
    BRecord.get_extension exampleBDigits ⟨40, 36⟩ = .panic ∧
    BRecord.get_extension exampleBDigits ⟨35, 40⟩ = .panic := by
  decide

/-- C5, counterexample: "AC00069" does not decode to a single-letter
manufacturer code with the 5-digit id "00069": the id field is the fixed
3-byte window "069". -/
theorem claim_C5_counterexample :
    ∃ m id tail, Record.parse_line [65, 67, 48, 48, 48, 54, 57] =
      .ok (.A ⟨m, id, tail⟩) ∧ id ≠ [48, 48, 48, 54, 57] :=
  ⟨.UnknownTriple [67, 48, 48], [48, 54, 57], none, by decide, by decide⟩

/-- C5 (amended): `ARecord::parse` knows a single layout — bytes 1..4 are the
triple manufacturer code and bytes 4..7 the 3-character id, the rest the
tail — with no 5-digit-serial heuristics: "AC00069" gives the unknown triple
"C00" with id "069"; "AFIL01460FLIGHT:1" gives code "FIL", id "014", tail
"60FLIGHT:1"; "ACAMWatFoo" gives code "CAM", id "Wat", tail "Foo". -/
theorem claim_C5 :
    Record.parse_line [65, 67, 48, 48, 48, 54, 57] =
      .ok (.A ⟨.UnknownTriple [67, 48, 48], [48, 54, 57], none⟩) ∧
    Record.parse_line [65, 70, 73, 76, 48, 49, 52, 54, 48, 70, 76, 73, 71,
        72, 84, 58, 49] =
      .ok (.A ⟨.Filser, [48, 49, 52],
        some [54, 48, 70, 76, 73, 71, 72, 84, 58, 49]⟩) ∧
    Record.parse_line [65, 67, 65, 77, 87, 97, 116, 70, 111, 111] =
      .ok (.A ⟨.CambridgeAeroInstruments, [87, 97, 116], some [70, 111, 111]⟩) ∧
    (∀ (l : List Nat) (r : ARecord), ARecord.parse l = .ok r →
      r.manufacturer = Manufacturer.parse_triple_char (slice l 1 4) ∧
      r.unique_id = slice l 4 7) := by
  refine ⟨by decide, by decide, by decide, ?_⟩
  intro l r h
  rw [ARecord.parse] at h
  simp only [RResult.bind_eq_ok] at h
  obtain ⟨first, hfirst, h⟩ := h
  split at h
  · exact absurd h (by simp)
  split at h
  · exact absurd h (by simp)
  split at h
  · exact absurd h (by simp)
  injection h with h
  subst h
  exact ⟨rfl, rfl⟩

theorem claim_C5_witness :
    (⟨.CambridgeAeroInstruments, [87, 97, 116], some [70, 111, 111]⟩ :
        ARecord).manufacturer =
      Manufacturer.parse_triple_char
        (slice [65, 67, 65, 77, 87, 97, 116, 70, 111, 111] 1 4) ∧
    (⟨.CambridgeAeroInstruments, [87, 97, 116], some [70, 111, 111]⟩ :
        ARecord).unique_id =
      slice [65, 67, 65, 77, 87, 97, 116, 70, 111, 111] 4 7 :=
  claim_C5.2.2.2 [65, 67, 65, 77, 87, 97, 116, 70, 111, 111]
    ⟨.CambridgeAeroInstruments, [87, 97, 116], some [70, 111, 111]⟩ (by decide)

/-- C6, counterexample: `GpsQualifier` has no fallback variant — a D record
of valid shape whose qualifier byte is '3' fails with `SyntaxError` instead
of preserving the byte. -/
theorem claim_C6_counterexample :
    Record.parse_line [68, 51, 65, 66, 67, 68] = .err .SyntaxError ∧
    gpsQualifierParse 51 = .err .SyntaxError := by
  decide

/-- C6 (amended): `DataSource` follows the fallback pattern — `from_byte`
stores any unrecognised byte in `Unrecognized` and `to_byte` recovers it, so
an H record like "H:00 a " decodes with its unknown source byte preserved —
but `GpsQualifier` is a closed two-variant enumeration: every byte other
than '1'/'2' makes `DRecord::parse` fail with `SyntaxError`. -/
theorem claim_C6 :
    (∀ b : Nat, (DataSource.from_byte b).to_byte = b) ∧
    (∀ b : Nat, b ≠ 49 → b ≠ 50 → gpsQualifierParse b = .err .SyntaxError) ∧
    Record.parse_line [72, 58, 48, 48, 32, 97, 32] =
      .ok (.H ⟨.Unrecognized 58, [48, 48, 32], none, [97, 32]⟩) := by
  refine ⟨DataSource.to_from, ?_, by decide⟩
  intro b h1 h2
  rw [gpsQualifierParse, if_neg h1, if_neg h2]

theorem claim_C6_witness : gpsQualifierParse 88 = .err .SyntaxError :=
  claim_C6.2.1 88 (by decide) (by decide)

/-- C7, counterexample: a time sub-field need not be decimal digits —
`u8::from_str` accepts a leading '+', so "+12345" decodes to 01:23:45 even
though '+' is not a digit. -/
theorem claim_C7_counterexample :
    Time.parse [43, 49, 50, 51, 52, 53] = .ok ⟨1, 23, 45⟩ ∧
    isDigitByte 43 = false := by
  decide

/-- C7 (amended): `Time::parse` accepts exactly 6-byte ASCII windows (a
shorter or longer slice is a panic upstream), splits 2+2+2, parses each
sub-field with `u8::from_str` (which also admits a leading '+'), and keeps
the lax bounds hours ≤ 24, minutes ≤ 60, seconds ≤ 60: "246060" decodes,
"250000" is `NumberOutOfRange`, "0a2345" is `SyntaxError`, a non-ASCII
window is `NonASCIICharacters`, and any all-digit value within bounds
round-trips. -/
theorem claim_C7 :
    (∀ (s : List Nat) (t : Time), Time.parse s = .ok t →
      s.length = 6 ∧ allAscii s = true ∧
      t.hours ≤ 24 ∧ t.minutes ≤ 60 ∧ t.seconds ≤ 60) ∧
    (∀ hh mm ss : Nat, hh ≤ 24 → mm ≤ 60 → ss ≤ 60 →
      Time.parse (fmtNat 2 hh ++ (fmtNat 2 mm ++ fmtNat 2 ss)) =
        .ok ⟨hh, mm, ss⟩) ∧
    Time.parse [50, 52, 54, 48, 54, 48] = .ok ⟨24, 60, 60⟩ ∧
    Time.parse [50, 53, 48, 48, 48, 48] = .err .NumberOutOfRange ∧
    Time.parse [48, 97, 50, 51, 52, 53] = .err .SyntaxError ∧
    Time.parse [192, 49, 50, 51, 52, 53] = .err .NonASCIICharacters ∧
    Time.parse [48, 49, 50, 51, 52] = .panic := by
  refine ⟨?_, ?_, by decide, by decide, by decide, by decide, by decide⟩
  · intro s t h
    have hb := timeParse_ok h
    rw [Time.parse] at h
    split at h
    · exact absurd h (by simp)
    rename_i hlen
    split at h
    · exact absurd h (by simp)
    rename_i hascii
    exact ⟨by omega, by revert hascii; cases allAscii s <;> simp,
      hb.1, hb.2.1, hb.2.2⟩
  · intro hh mm ss h1 h2 h3
    exact (timeFormat_spec (t := ⟨hh, mm, ss⟩) h1 h2 h3).1

theorem claim_C7_witness :
    Time.parse (fmtNat 2 12 ++ (fmtNat 2 34 ++ fmtNat 2 56)) =
      .ok ⟨12, 34, 56⟩ :=
  claim_C7.2.1 12 34 56 (by decide) (by decide) (by decide)

/-- C8: dispatch of C-led lines — a line shorter than 9 bytes fails with
`SyntaxError`; otherwise byte 8 being 'N' or 'S' selects the turnpoint
codec and anything else the declaration codec; the two example lines decode
as a turnpoint and a declaration respectively. -/
theorem claim_C8 :
    (∀ l : List Nat, l.head? = some 67 → l.length < 9 →
      Record.parse_line l = .err .SyntaxError) ∧
    (∀ l : List Nat, l.head? = some 67 → ¬l.length < 9 →
      (l.getD 8 0 = 78 ∨ l.getD 8 0 = 83) →
      Record.parse_line l = (CRecordTurnpoint.parse l).map .CTurnpoint) ∧
    (∀ l : List Nat, l.head? = some 67 → ¬l.length < 9 →
      ¬(l.getD 8 0 = 78 ∨ l.getD 8 0 = 83) →
      Record.parse_line l = (CRecordDeclaration.parse l).map .CDeclaration) ∧
    Record.parse_line [67, 53, 49, 53, 54, 48, 52, 48, 78, 48, 48, 48, 51,
        56, 49, 50, 48, 87, 76, 66, 90, 45, 76, 101, 105, 103, 104, 116,
        111, 110, 32, 66, 117, 122, 122, 97, 114, 100, 32, 78, 69] =
      .ok (.CTurnpoint ⟨⟨⟨51, 56040, .North⟩, ⟨0, 38120, .West⟩⟩,
        some [76, 66, 90, 45, 76, 101, 105, 103, 104, 116, 111, 110, 32,
          66, 117, 122, 122, 97, 114, 100, 32, 78, 69]⟩) ∧
    Record.parse_line [67, 50, 51, 48, 55, 49, 56, 48, 57, 50, 48, 52, 52,
        48, 48, 48, 48, 48, 48, 48, 48, 48, 50, 48, 52, 70, 111, 111, 32,
        116, 97, 115, 107] =
      .ok (.CDeclaration ⟨⟨23, 7, 18⟩, ⟨9, 20, 44⟩, ⟨0, 0, 0⟩, 2, 4,
        some [70, 111, 111, 32, 116, 97, 115, 107]⟩) := by
  refine ⟨?_, ?_, ?_, by decide, by decide⟩
  · intro l hh hlen
    rw [parse_line_head hh, if_neg (by omega), if_neg (by omega),
      if_pos rfl, if_pos hlen]
  · intro l hh hlen hns
    rw [parse_line_head hh, if_neg (by omega), if_neg (by omega),
      if_pos rfl, if_neg hlen, if_pos hns]
  · intro l hh hlen hns
    rw [parse_line_head hh, if_neg (by omega), if_neg (by omega),
      if_pos rfl, if_neg hlen, if_neg hns]

theorem claim_C8_witness :
    Record.parse_line [67, 49, 50, 51] = .err .SyntaxError :=
  claim_C8.1 [67, 49, 50, 51] (by decide) (by decide)

/-- C9: extension-definition records — "I033638FXA3941ENL4246TAS" decodes to
the three declared extensions; a remainder whose length is not
`count * 7` fails with `SyntaxError`; the tail splits into consecutive
7-byte chunks; each chunk decodes as 2-digit start, 2-digit end, 3-byte
mnemonic; and the first failing chunk aborts the whole decode with its own
error. -/
theorem claim_C9 :
    Record.parse_line [73, 48, 51, 51, 54, 51, 56, 70, 88, 65, 51, 57, 52,
        49, 69, 78, 76, 52, 50, 52, 54, 84, 65, 83] =
      .ok (.I ⟨3, [⟨⟨36, 38⟩, [70, 88, 65]⟩, ⟨⟨39, 41⟩, [69, 78, 76]⟩,
        ⟨⟨42, 46⟩, [84, 65, 83]⟩]⟩) ∧
    ExtensionDefRecord.parse [73, 48, 51, 51, 54, 51, 56, 70, 88, 65] =
      .err .SyntaxError ∧
    Extension.parse [51, 54, 51, 56, 70, 88, 65] =
      .ok ⟨⟨36, 38⟩, [70, 88, 65]⟩ ∧
    (∀ xs ys : List Nat, xs.length = 7 →
      chunks7 (xs ++ ys) = xs :: chunks7 ys) ∧
    (∀ (c : List Nat) (cs : List (List Nat)) (e : ParseError),
      Extension.parse c = .err e → parseChunks (c :: cs) = .err e) ∧
    (∀ (cs : List (List Nat)) (es : List Extension),
      parseChunks cs = .ok es → es.length = cs.length) := by
  refine ⟨by decide, by decide, by decide, ?_, ?_, ?_⟩
  · intro xs ys h
    exact chunks7_cons7 ys h
  · intro c cs e h
    rw [parseChunks, h]
    rfl
  · intro cs es h
    exact parseChunks_length h

theorem claim_C9_witness :
    parseChunks [[48]] = .err .SyntaxError :=
  claim_C9.2.2.2.2.1 [48] [] .SyntaxError (by decide)

/-- C10: whenever `Record::parse_line` succeeds, the variant matches the
line's first byte — each lettered variant appears exactly under its kind
letter, and `Unrecognised` keeps the whole line exactly when the first byte
is none of the kind letters — and the rendering of every lettered variant
starts with its kind letter. -/
theorem claim_C10 :
    (∀ (l : List Nat) (r : Record), Record.parse_line l = .ok r →
      (∀ b, Record.kindByte r = some b → l.head? = some b) ∧
      (Record.kindByte r = none → r = .Unrecognised l ∧
        ∀ b, l.head? = some b → b ∉ kindLetters)) ∧
    (∀ (r : Record) (b : Nat), Record.kindByte r = some b →
      (Record.format r).head? = some b) := by
  constructor
  · intro l r h
    cases l with
    | nil => exact absurd h (by simp [Record.parse_line])
    | cons b0 rest0 =>
      simp only [Record.parse_line, List.head?] at h
      by_cases h65 : b0 = 65
      · rw [if_pos h65] at h
        rw [RResult.map_eq_ok] at h
        obtain ⟨ra, _, hr⟩ := h
        subst hr
        subst h65
        exact ⟨fun b hb => by injection hb with hb; subst hb; rfl, by simp [Record.kindByte]⟩
      rw [if_neg h65] at h
      by_cases h66 : b0 = 66
      · rw [if_pos h66] at h
        rw [RResult.map_eq_ok] at h
        obtain ⟨ra, _, hr⟩ := h
        subst hr
        subst h66
        exact ⟨fun b hb => by injection hb with hb; subst hb; rfl, by simp [Record.kindByte]⟩
      rw [if_neg h66] at h
      by_cases h67 : b0 = 67
      · rw [if_pos h67] at h
        subst h67
        split at h
        · exact absurd h (by simp)
        split at h
        all_goals
          rw [RResult.map_eq_ok] at h
          obtain ⟨ra, _, hr⟩ := h
          subst hr
          exact ⟨fun b hb => by injection hb with hb; subst hb; rfl,
            by simp [Record.kindByte]⟩
      rw [if_neg h67] at h
      by_cases h68 : b0 = 68
      · rw [if_pos h68] at h
        rw [RResult.map_eq_ok] at h
        obtain ⟨ra, _, hr⟩ := h
        subst hr
        subst h68
        exact ⟨fun b hb => by injection hb with hb; subst hb; rfl, by simp [Record.kindByte]⟩
      rw [if_neg h68] at h
      by_cases h69 : b0 = 69
      · rw [if_pos h69] at h
        rw [RResult.map_eq_ok] at h
        obtain ⟨ra, _, hr⟩ := h
        subst hr
        subst h69
        exact ⟨fun b hb => by injection hb with hb; subst hb; rfl, by simp [Record.kindByte]⟩
      rw [if_neg h69] at h
      by_cases h70 : b0 = 70
      · rw [if_pos h70] at h
        rw [RResult.map_eq_ok] at h
        obtain ⟨ra, _, hr⟩ := h
        subst hr
        subst h70
        exact ⟨fun b hb => by injection hb with hb; subst hb; rfl, by simp [Record.kindByte]⟩
      rw [if_neg h70] at h
      by_cases h71 : b0 = 71
      · rw [if_pos h71] at h
        rw [RResult.map_eq_ok] at h
        obtain ⟨ra, _, hr⟩ := h
        subst hr
        subst h71
        exact ⟨fun b hb => by injection hb with hb; subst hb; rfl, by simp [Record.kindByte]⟩
      rw [if_neg h71] at h
      by_cases h72 : b0 = 72
      · rw [if_pos h72] at h
        rw [RResult.map_eq_ok] at h
        obtain ⟨ra, _, hr⟩ := h
        subst hr
        subst h72
        exact ⟨fun b hb => by injection hb with hb; subst hb; rfl, by simp [Record.kindByte]⟩
      rw [if_neg h72] at h
      by_cases h73 : b0 = 73
      · rw [if_pos h73] at h
        rw [RResult.map_eq_ok] at h
        obtain ⟨ra, _, hr⟩ := h
        subst hr
        subst h73
        exact ⟨fun b hb => by injection hb with hb; subst hb; rfl, by simp [Record.kindByte]⟩
      rw [if_neg h73] at h
      by_cases h74 : b0 = 74
      · rw [if_pos h74] at h
        rw [RResult.map_eq_ok] at h
        obtain ⟨ra, _, hr⟩ := h
        subst hr
        subst h74
        exact ⟨fun b hb => by injection hb with hb; subst hb; rfl, by simp [Record.kindByte]⟩
      rw [if_neg h74] at h
      by_cases h75 : b0 = 75
      · rw [if_pos h75] at h
        rw [RResult.map_eq_ok] at h
        obtain ⟨ra, _, hr⟩ := h
        subst hr
        subst h75
        exact ⟨fun b hb => by injection hb with hb; subst hb; rfl, by simp [Record.kindByte]⟩
      rw [if_neg h75] at h
      by_cases h76 : b0 = 76
      · rw [if_pos h76] at h
        rw [RResult.map_eq_ok] at h
        obtain ⟨ra, _, hr⟩ := h
        subst hr
        subst h76
        exact ⟨fun b hb => by injection hb with hb; subst hb; rfl, by simp [Record.kindByte]⟩
      rw [if_neg h76] at h
      injection h with h
      subst h
      refine ⟨by simp [Record.kindByte], fun _ => ⟨rfl, ?_⟩⟩
      intro b hb
      injection hb with hb
      subst hb
      simp only [kindLetters, List.mem_cons, List.not_mem_nil, or_false]
      push_neg
      exact ⟨h65, h66, h67, h68, h69, h70, h71, h72, h73, h74, h75, h76⟩
  · intro r b hb
    cases r with
    | H rh =>
      injection hb with hb
      subst hb
      rw [show Record.format (.H rh) = HRecord.format rh from rfl,
        HRecord.format]
      cases rh.friendly_name <;> rfl
    | Unrecognised line => exact absurd hb (by simp [Record.kindByte])
    | A ra => injection hb with hb; subst hb; rfl
    | B ra => injection hb with hb; subst hb; rfl
    | CDeclaration ra => injection hb with hb; subst hb; rfl
    | CTurnpoint ra => injection hb with hb; subst hb; rfl
    | D ra => injection hb with hb; subst hb; rfl
    | E ra => injection hb with hb; subst hb; rfl
    | F ra => injection hb with hb; subst hb; rfl
    | G ra => injection hb with hb; subst hb; rfl
    | I ra => injection hb with hb; subst hb; rfl
    | J ra => injection hb with hb; subst hb; rfl
    | K ra => injection hb with hb; subst hb; rfl
    | L ra => injection hb with hb; subst hb; rfl

theorem claim_C10_witness :
    (Record.format (.G ⟨[88, 89, 90]⟩)).head? = some 71 :=
  claim_C10.2 (.G ⟨[88, 89, 90]⟩) 71 (by decide)

end Igc
